import Mathlib

/-!
Verification development for a coverage-guided smart-contract fuzzer.

The development shallowly embeds the following parts of the source tree:
  * the weighted random chooser (package weightedrandom),
  * project-configuration validation (package config),
  * JSON encoding/decoding of ABI-typed argument values and the
    CallMessage JSON patch-unmarshalling (packages valuegeneration, calls),
  * the shrinking value generator (package valuegeneration).

Go strings are modelled as lists of characters (or lists of bytes where the
byte-level view matters), Go byte slices as lists of naturals below 256,
machine integers as Nat/Int with explicit wrap-around, and fallible Go
functions as Option/Except-style results.  Functions from external libraries
(math/big, go-ethereum common, encoding/hex) that the embedded code calls are
modelled from their documented behaviour; each such model carries a comment
saying what it mirrors.
-/

namespace Medusa

/-- Go strings viewed as character lists. -/
abbrev GoStr := List Char

/-! ### Character and digit helpers (models of strconv / math/big scanning) -/

/-- Character for a single digit value: 0-9 then lowercase letters.
Mirrors the digit characters emitted by strconv.FormatUint and
big.Int.String for bases up to 36 (only base 10 is used by the encoder). -/
def digitCh (d : Nat) : Char :=
  if d < 10 then Char.ofNat (48 + d) else Char.ofNat (87 + d)

/-- Hex digit character with selectable case (uppercase when the flag is
true).  Digits 0-9 are unaffected by the flag. -/
def hexDigitCased (up : Bool) (d : Nat) : Char :=
  if d < 10 then Char.ofNat (48 + d)
  else Char.ofNat ((if up then 55 else 87) + d)

/-- Digit value of a character: models the digit classification used by
math/big scanning and encoding/hex (0-9, a-z, A-Z); callers filter by the
base. -/
def digitVal (c : Char) : Option Nat :=
  if 48 ≤ c.toNat ∧ c.toNat ≤ 57 then some (c.toNat - 48)
  else if 97 ≤ c.toNat ∧ c.toNat ≤ 122 then some (c.toNat - 87)
  else if 65 ≤ c.toNat ∧ c.toNat ≤ 90 then some (c.toNat - 55)
  else none

/-- Digit-run scanner for math/big SetString with a base argument of 0:
underscores are permitted between successive digits (and directly after a
base prefix, encoded by starting with prevDigit = true); the run must end on
a digit and contain at least one digit. -/
def parseDigitsCore (base : Nat) : List Char → Bool → Bool → Nat → Option Nat
  | [], prevDigit, seen, acc => if prevDigit && seen then some acc else none
  | c :: rest, prevDigit, seen, acc =>
    if c = '_' then
      if prevDigit then parseDigitsCore base rest false seen acc else none
    else
      match digitVal c with
      | some d =>
        if d < base then parseDigitsCore base rest true true (acc * base + d)
        else none
      | none => none

/-- Magnitude part of big.Int.SetString(s, 0) after the optional sign: a base
marker 0x/0X (hex), 0o/0O (octal), 0b/0B (binary), a legacy leading 0
(octal), else decimal. -/
def parseMagnitude : List Char → Option Nat
  | [] => none
  | c :: rest =>
    if c = '0' then
      match rest with
      | [] => some 0
      | c2 :: rest2 =>
        if c2 = 'x' ∨ c2 = 'X' then parseDigitsCore 16 rest2 true false 0
        else if c2 = 'o' ∨ c2 = 'O' then parseDigitsCore 8 rest2 true false 0
        else if c2 = 'b' ∨ c2 = 'B' then parseDigitsCore 2 rest2 true false 0
        else parseDigitsCore 8 rest true true 0
    else parseDigitsCore 10 (c :: rest) false false 0

/-- Model of big.Int.SetString(s, 0): optional sign, then the magnitude.
Returns none exactly when SetString reports failure. -/
def parseSetString (cs : List Char) : Option Int :=
  match cs with
  | [] => none
  | c :: rest =>
    if c = '-' then (parseMagnitude rest).map (fun m => -(m : Int))
    else if c = '+' then (parseMagnitude rest).map (fun m => (m : Int))
    else (parseMagnitude (c :: rest)).map (fun m => (m : Int))

/-- Little-endian base-10 digits with explicit fuel, so that the kernel can
evaluate it; agrees with Nat.digits 10 (see natDigitsRev_eq). -/
def natDigitsRevFuel : Nat → Nat → List Nat
  | 0, _ => []
  | fuel + 1, n => if n = 0 then [] else n % 10 :: natDigitsRevFuel fuel (n / 10)

/-- Little-endian base-10 digits of a natural number. -/
def natDigitsRev (n : Nat) : List Nat :=
  natDigitsRevFuel n n

theorem natDigitsRevFuel_eq (fuel n : Nat) (h : n ≤ fuel) :
    natDigitsRevFuel fuel n = Nat.digits 10 n := by
  induction fuel generalizing n with
  | zero =>
    have hn : n = 0 := by omega
    subst hn
    simp [natDigitsRevFuel, Nat.digits_zero]
  | succ f ih =>
    by_cases hn : n = 0
    · subst hn; simp [natDigitsRevFuel, Nat.digits_zero]
    · rw [natDigitsRevFuel, if_neg hn]
      rw [Nat.digits_def' (by norm_num : (1 : Nat) < 10) (by omega : 0 < n)]
      congr 1
      exact ih (n / 10) (by omega)

theorem natDigitsRev_eq (n : Nat) : natDigitsRev n = Nat.digits 10 n :=
  natDigitsRevFuel_eq n n (Nat.le_refl n)

/-- Decimal rendering of a natural number; model of strconv.FormatUint(v,10)
and of big.Int.String for nonnegative values. -/
def formatNat (n : Nat) : List Char :=
  if n = 0 then ['0'] else (natDigitsRev n).reverse.map digitCh

theorem formatNat_eq_digits (n : Nat) :
    formatNat n = if n = 0 then ['0'] else (Nat.digits 10 n).reverse.map digitCh := by
  unfold formatNat
  rw [natDigitsRev_eq]

/-- Decimal rendering of an integer; model of strconv.FormatInt(v,10) and of
big.Int.String. -/
def formatInt (v : Int) : List Char :=
  if v < 0 then '-' :: formatNat v.natAbs else formatNat v.natAbs

/-! ### Round-trip lemmas for decimal formatting and parsing -/

theorem digitVal_digitCh {d : Nat} (hd : d < 10) : digitVal (digitCh d) = some d := by
  interval_cases d <;> decide

theorem digitCh_ne_zero_char {d : Nat} (hd : d < 10) (hdz : d ≠ 0) : digitCh d ≠ '0' := by
  interval_cases d <;> simp_all <;> decide

theorem digitCh_ne_dash {d : Nat} (hd : d < 10) : digitCh d ≠ '-' := by
  interval_cases d <;> decide

theorem digitCh_ne_plus {d : Nat} (hd : d < 10) : digitCh d ≠ '+' := by
  interval_cases d <;> decide

theorem digitCh_ne_underscore {d : Nat} (hd : d < 10) : digitCh d ≠ '_' := by
  interval_cases d <;> decide

theorem parseDigitsCore_digits (ds : List Nat) (acc : Nat)
    (h : ∀ d ∈ ds, d < 10) :
    parseDigitsCore 10 (ds.map digitCh) true true acc =
      some (ds.foldl (fun a d => a * 10 + d) acc) := by
  induction ds generalizing acc with
  | nil => rfl
  | cons d rest ih =>
    have hd : d < 10 := h d (List.mem_cons_self d rest)
    simp only [List.map_cons, parseDigitsCore, if_neg (digitCh_ne_underscore hd),
      digitVal_digitCh hd, if_pos hd]
    exact ih (acc * 10 + d) (fun x hx => h x (List.mem_cons_of_mem _ hx))

theorem foldl_digits_reverse (n : Nat) :
    ((Nat.digits 10 n).reverse).foldl (fun a d => a * 10 + d) 0 = n := by
  have h : ∀ L : List Nat, L.reverse.foldl (fun a d => a * 10 + d) 0 = Nat.ofDigits 10 L := by
    intro L
    induction L with
    | nil => rfl
    | cons d rest ih =>
      rw [List.reverse_cons, List.foldl_append, ih]
      simp [Nat.ofDigits_cons]
      ring
  rw [h]
  exact_mod_cast Nat.ofDigits_digits 10 n

theorem parseMagnitude_formatNat (n : Nat) :
    parseMagnitude (formatNat n) = some n := by
  by_cases hn : n = 0
  · subst hn; rfl
  · have hne : Nat.digits 10 n ≠ [] := Nat.digits_ne_nil_iff_ne_zero.mpr hn
    have hrevne : (Nat.digits 10 n).reverse ≠ [] := by simpa using hne
    obtain ⟨d, ds, hds⟩ := List.exists_cons_of_ne_nil hrevne
    have hmem : ∀ x ∈ (Nat.digits 10 n).reverse, x < 10 := by
      intro x hx
      exact Nat.digits_lt_base (by norm_num) (List.mem_reverse.mp hx)
    have hd10 : d < 10 := hmem d (by rw [hds]; exact List.mem_cons_self d ds)
    have hdz : d ≠ 0 := by
      have hlast : (Nat.digits 10 n).getLast hne ≠ 0 := Nat.getLast_digit_ne_zero 10 hn
      have h1 : (Nat.digits 10 n).getLast? = some d := by
        rw [← List.head?_reverse, hds]
        rfl
      have h2 : (Nat.digits 10 n).getLast? = some ((Nat.digits 10 n).getLast hne) :=
        List.getLast?_eq_getLast _ hne
      have h3 : d = (Nat.digits 10 n).getLast hne := by
        rw [h1] at h2
        exact Option.some_injective _ h2
      rw [h3]
      exact hlast
    have hform : formatNat n = digitCh d :: ds.map digitCh := by
      rw [formatNat_eq_digits, if_neg hn, hds]
      rfl
    rw [hform]
    simp only [parseMagnitude]
    rw [if_neg (digitCh_ne_zero_char hd10 hdz)]
    simp only [parseDigitsCore, if_neg (digitCh_ne_underscore hd10),
      digitVal_digitCh hd10, if_pos hd10]
    rw [parseDigitsCore_digits ds (0 * 10 + d)
      (fun x hx => hmem x (by rw [hds]; exact List.mem_cons_of_mem _ hx))]
    have hfold := foldl_digits_reverse n
    rw [hds] at hfold
    simp only [List.foldl_cons] at hfold
    rw [hfold]

theorem formatNat_head_not_sign (n : Nat) :
    ∃ c cs, formatNat n = c :: cs ∧ c ≠ '-' ∧ c ≠ '+' := by
  by_cases hn : n = 0
  · subst hn; exact ⟨'0', [], rfl, by decide, by decide⟩
  · have hne : Nat.digits 10 n ≠ [] := Nat.digits_ne_nil_iff_ne_zero.mpr hn
    have hrevne : (Nat.digits 10 n).reverse ≠ [] := by simpa using hne
    obtain ⟨d, ds, hds⟩ := List.exists_cons_of_ne_nil hrevne
    have hd10 : d < 10 := by
      have hmemd : d ∈ Nat.digits 10 n := by
        rw [← List.mem_reverse, hds]
        exact List.mem_cons_self d ds
      exact Nat.digits_lt_base (by norm_num) hmemd
    refine ⟨digitCh d, ds.map digitCh, ?_, digitCh_ne_dash hd10, digitCh_ne_plus hd10⟩
    rw [formatNat_eq_digits, if_neg hn, hds]
    rfl

theorem parseSetString_formatInt (v : Int) :
    parseSetString (formatInt v) = some v := by
  obtain ⟨c, cs, hform, hnd, hnp⟩ := formatNat_head_not_sign v.natAbs
  by_cases hv : v < 0
  · unfold formatInt
    rw [if_pos hv]
    show (parseMagnitude (formatNat v.natAbs)).map (fun m => -(m : Int)) = some v
    rw [parseMagnitude_formatNat]
    show some (-(v.natAbs : Int)) = some v
    congr 1
    omega
  · unfold formatInt
    rw [if_neg hv, hform]
    simp only [parseSetString]
    rw [if_neg hnd, if_neg hnp, ← hform, parseMagnitude_formatNat]
    show some ((v.natAbs : Int)) = some v
    congr 1
    omega

/-! ### Hex encoding and decoding (models of encoding/hex and go-ethereum common) -/

/-- Hex rendering of a byte list with a per-hex-digit case choice (the
casing function receives the index of the hex digit).  With a constantly
false casing this is hex.EncodeToString; with the Keccak-derived casing of
go-ethereum it is the EIP-55 checksummed rendering used by
common.Address.String (the Keccak hash itself is abstracted into the casing
parameter, which the theorems quantify over). -/
def hexEncodeCased (casing : Nat → Bool) : Nat → List Nat → List Char
  | _, [] => []
  | i, v :: rest =>
    hexDigitCased (casing (2 * i)) (v / 16 % 16) ::
    hexDigitCased (casing (2 * i + 1)) (v % 16) ::
    hexEncodeCased casing (i + 1) rest

/-- Lowercase hex rendering of a byte list; model of hex.EncodeToString. -/
def hexEncodeLower (b : List Nat) : List Char :=
  hexEncodeCased (fun _ => false) 0 b

/-- Hex digit acceptance of encoding/hex: value below 16 from 0-9/a-f/A-F. -/
def hexCharVal (c : Char) : Option Nat :=
  match digitVal c with
  | some d => if d < 16 then some d else none
  | none => none

/-- Strict hex decoding; model of hex.DecodeString, which fails on an odd
length or any non-hex character. -/
def hexDecodeStrict : List Char → Option (List Nat)
  | [] => some []
  | [_] => none
  | c1 :: c2 :: rest =>
    match hexCharVal c1, hexCharVal c2 with
    | some d1, some d2 => (hexDecodeStrict rest).map (fun bs => (16 * d1 + d2) :: bs)
    | _, _ => none

/-- Lenient hex decoding; model of common.Hex2Bytes, which calls
hex.DecodeString and ignores the error, keeping the bytes decoded before
the first invalid pair (a trailing odd character is dropped). -/
def hexDecodeLenient : List Char → List Nat
  | c1 :: c2 :: rest =>
    match hexCharVal c1, hexCharVal c2 with
    | some d1, some d2 => (16 * d1 + d2) :: hexDecodeLenient rest
    | _, _ => []
  | _ => []

theorem hexCharVal_hexDigitCased {d : Nat} (hd : d < 16) (up : Bool) :
    hexCharVal (hexDigitCased up d) = some d := by
  cases up <;> interval_cases d <;> decide

theorem hexDecodeLenient_encode (casing : Nat → Bool) (b : List Nat)
    (hb : ∀ v ∈ b, v < 256) :
    ∀ i, hexDecodeLenient (hexEncodeCased casing i b) = b := by
  induction b with
  | nil => intro i; rfl
  | cons v rest ih =>
    intro i
    have hv : v < 256 := hb v (List.mem_cons_self v rest)
    have h1 : v / 16 % 16 < 16 := Nat.mod_lt _ (by norm_num)
    have h2 : v % 16 < 16 := Nat.mod_lt _ (by norm_num)
    simp only [hexEncodeCased, hexDecodeLenient,
      hexCharVal_hexDigitCased h1, hexCharVal_hexDigitCased h2]
    rw [ih (fun x hx => hb x (List.mem_cons_of_mem _ hx)) (i + 1)]
    have hsm : v / 16 % 16 = v / 16 := Nat.mod_eq_of_lt (by omega)
    rw [hsm]
    congr 1
    omega

theorem hexDecodeStrict_encode (casing : Nat → Bool) (b : List Nat)
    (hb : ∀ v ∈ b, v < 256) :
    ∀ i, hexDecodeStrict (hexEncodeCased casing i b) = some b := by
  induction b with
  | nil => intro i; rfl
  | cons v rest ih =>
    intro i
    have hv : v < 256 := hb v (List.mem_cons_self v rest)
    have h1 : v / 16 % 16 < 16 := Nat.mod_lt _ (by norm_num)
    have h2 : v % 16 < 16 := Nat.mod_lt _ (by norm_num)
    simp only [hexEncodeCased, hexDecodeStrict,
      hexCharVal_hexDigitCased h1, hexCharVal_hexDigitCased h2]
    rw [ih (fun x hx => hb x (List.mem_cons_of_mem _ hx)) (i + 1)]
    have hsm : v / 16 % 16 = v / 16 := Nat.mod_eq_of_lt (by omega)
    rw [hsm]
    simp only [Option.map]
    congr 2
    omega

theorem hexEncodeCased_length (casing : Nat → Bool) (b : List Nat) :
    ∀ i, (hexEncodeCased casing i b).length = 2 * b.length := by
  induction b with
  | nil => intro i; rfl
  | cons v rest ih =>
    intro i
    simp only [hexEncodeCased, List.length_cons, ih (i + 1)]
    omega

/-! ### Substring search (model of strings.Cut / strings.Index) -/

/-- Whether the first list is a leading segment of the second. -/
def leadsList : List Char → List Char → Bool
  | [], _ => true
  | _ :: _, [] => false
  | a :: as, b :: bs => a = b && leadsList as bs

/-- Model of strings.Cut: split around the first occurrence of sep, or none
when sep does not occur. -/
def cutFirst (sep : List Char) : List Char → Option (List Char × List Char)
  | [] => if leadsList sep [] then some ([], []) else none
  | c :: rest =>
    if leadsList sep (c :: rest) then some ([], (c :: rest).drop sep.length)
    else (cutFirst sep rest).map (fun p => (c :: p.1, p.2))

theorem leadsList_append (sep rest : List Char) : leadsList sep (sep ++ rest) = true := by
  induction sep with
  | nil => rfl
  | cons a as ih => simp [leadsList, ih]

theorem cutFirst_append (sep rest : List Char) :
    cutFirst sep (sep ++ rest) = some ([], rest) := by
  cases hsr : sep ++ rest with
  | nil =>
    have hsep : sep = [] := by
      cases sep with
      | nil => rfl
      | cons a as => cases hsr
    have hrest : rest = [] := by
      cases sep <;> simp_all
    subst hsep
    subst hrest
    rfl
  | cons c cs =>
    have hl : leadsList sep (c :: cs) = true := by
      rw [← hsr]; exact leadsList_append sep rest
    simp only [cutFirst, if_pos hl]
    rw [← hsr, List.drop_left]

theorem leadsList_sub (sep s : List Char) (h : leadsList sep s = true) :
    ∀ c ∈ sep, c ∈ s := by
  induction sep generalizing s with
  | nil => intro c hc; cases hc
  | cons a as ih =>
    match s with
    | [] => cases h
    | b :: bs =>
      simp only [leadsList, Bool.and_eq_true, decide_eq_true_eq] at h
      intro c hc
      rcases List.mem_cons.mp hc with hceq | hcm
      · subst hceq; rw [h.1]; exact List.mem_cons_self b bs
      · exact List.mem_cons_of_mem _ (ih bs h.2 c hcm)

theorem cutFirst_mem (sep s : List Char) (h : (cutFirst sep s).isSome) :
    ∀ c ∈ sep, c ∈ s := by
  induction s with
  | nil =>
    by_cases hl : leadsList sep []
    · intro c hc
      exact leadsList_sub sep [] hl c hc
    · simp only [cutFirst, if_neg hl] at h
      cases h
  | cons b bs ih =>
    by_cases hl : leadsList sep (b :: bs)
    · exact leadsList_sub sep (b :: bs) hl
    · simp only [cutFirst, if_neg hl] at h
      intro c hc
      have hs : (cutFirst sep bs).isSome := by
        cases hcf : cutFirst sep bs with
        | none => rw [hcf] at h; cases h
        | some p => rfl
      exact List.mem_cons_of_mem _ (ih hs c hc)

/-! ### Addresses (models of go-ethereum common.Address helpers) -/

/-- The characters of the constant addressJSONContractNameOverridePrefix,
"DeployedContract:", from abi_values.go. -/
def addressJSONContractNameOverride : List Char :=
  ['D', 'e', 'p', 'l', 'o', 'y', 'e', 'd', 'C', 'o', 'n', 't', 'r', 'a', 'c', 't', ':']

/-- An address is its 20 bytes. -/
abbrev AddressBytes := List Nat

/-- Model of common.Address.String: 0x followed by 40 hex digits whose
case pattern (the EIP-55 checksum) is abstracted into the casing
parameter. -/
def goAddressString (casing : Nat → Bool) (b : AddressBytes) : List Char :=
  '0' :: 'x' :: hexEncodeCased casing 0 b

/-- Model of the 0x-marker test of common.FromHex (at least two characters,
a zero then x or X). -/
def has0x : List Char → Bool
  | c0 :: c1 :: _ => c0 = '0' && (c1 = 'x' || c1 = 'X')
  | _ => false

/-- Model of common.BytesToAddress / Address.SetBytes: keep the last 20
bytes, left-padding with zeros. -/
def bytesToAddress (b : List Nat) : AddressBytes :=
  let b2 := if b.length > 20 then b.drop (b.length - 20) else b
  List.replicate (20 - b2.length) 0 ++ b2

/-- Model of common.HexToAddress = BytesToAddress(FromHex(s)): strip an
optional 0x/0X, left-pad an odd-length hex string with one 0, decode hex
leniently, and crop/pad to 20 bytes. -/
def goHexToAddress (s : List Char) : AddressBytes :=
  let s1 := if has0x s then s.drop 2 else s
  let s2 := if s1.length % 2 = 1 then '0' :: s1 else s1
  bytesToAddress (hexDecodeLenient s2)

theorem mem_hexEncodeCased {c : Char} (casing : Nat → Bool) (b : List Nat) :
    ∀ i, c ∈ hexEncodeCased casing i b → ∃ up d, d < 16 ∧ c = hexDigitCased up d := by
  induction b with
  | nil => intro i h; cases h
  | cons v rest ih =>
    intro i h
    rcases List.mem_cons.mp h with h1 | h2
    · exact ⟨casing (2 * i), v / 16 % 16, Nat.mod_lt _ (by norm_num), h1⟩
    · rcases List.mem_cons.mp h2 with h3 | h4
      · exact ⟨casing (2 * i + 1), v % 16, Nat.mod_lt _ (by norm_num), h3⟩
      · exact ih (i + 1) h4

theorem hexDigitCased_ne_colon {d : Nat} (hd : d < 16) (up : Bool) :
    hexDigitCased up d ≠ ':' := by
  cases up <;> interval_cases d <;> decide

/-- The rendered form of an address never contains the deployed-contract
magic marker, because no character of the rendering is a colon. -/
theorem cutFirst_magic_goAddressString (casing : Nat → Bool) (b : AddressBytes) :
    cutFirst addressJSONContractNameOverride (goAddressString casing b) = none := by
  cases hcf : cutFirst addressJSONContractNameOverride (goAddressString casing b) with
  | none => rfl
  | some p =>
    exfalso
    have hsome : (cutFirst addressJSONContractNameOverride (goAddressString casing b)).isSome := by
      rw [hcf]; rfl
    have hcolon : ':' ∈ goAddressString casing b :=
      cutFirst_mem _ _ hsome ':' (by decide)
    rcases List.mem_cons.mp hcolon with h1 | h2
    · cases h1
    · rcases List.mem_cons.mp h2 with h3 | h4
      · cases h3
      · obtain ⟨up, d, hd, he⟩ := mem_hexEncodeCased casing b 0 h4
        exact hexDigitCased_ne_colon hd up he.symm

theorem goAddressString_length (casing : Nat → Bool) (b : AddressBytes) :
    (goAddressString casing b).length = 2 * b.length + 2 := by
  simp [goAddressString, hexEncodeCased_length]

/-- Round trip: parsing the rendered form of a 20-byte address returns the
same bytes, for any checksum casing. -/
theorem goHexToAddress_goAddressString (casing : Nat → Bool) (b : AddressBytes)
    (hlen : b.length = 20) (hb : ∀ v ∈ b, v < 256) :
    goHexToAddress (goAddressString casing b) = b := by
  have hhas : has0x (goAddressString casing b) = true := by
    simp [goAddressString, has0x]
  have hdrop : (goAddressString casing b).drop 2 = hexEncodeCased casing 0 b := rfl
  have hodd : ¬(hexEncodeCased casing 0 b).length % 2 = 1 := by
    rw [hexEncodeCased_length]
    omega
  unfold goHexToAddress
  simp only [hhas, hdrop, if_true]
  rw [if_neg hodd]
  rw [hexDecodeLenient_encode casing b hb 0]
  unfold bytesToAddress
  rw [if_neg (by omega : ¬b.length > 20)]
  simp [hlen]

/-! ### Weighted random chooser (package weightedrandom) -/

/-- A weighted choice: NewChoice copies the provided weight next to the
wrapped data. -/
structure Choice (α : Type) where
  data : α
  weight : Nat

/-- Chooser state: the list of choices and the cached weight total.  The
random provider and its mutex are modelled separately (Choose's draw is a
byte stream passed to the model of Choose).  totalWeight models the
*big.Int pointer of the source: none is the nil pointer, some w a big.Int
holding w.  The source documents the field as the sum of all weights in
choices. -/
structure Chooser (α : Type) where
  choices : List (Choice α)
  totalWeight : Option Nat

/-- Model of NewChooser / NewChooserWithRand: no choices; the struct
literal does not set totalWeight, leaving it the nil *big.Int (none). -/
def newChooser (α : Type) : Chooser α :=
  { choices := [], totalWeight := none }

/-- Model of Chooser.AddChoices.  For each added choice the source runs
new(big.Int).Add(c.totalWeight, choice.weight); with at least one choice to
add and a nil totalWeight (the freshly constructed chooser), Add
dereferences the nil operand — a runtime panic, modelled none.  With no
choices to add the summing loop body never runs and the chooser is
returned with its fields unchanged. -/
def addChoices {α : Type} (c : Chooser α) (new : List (Choice α)) : Option (Chooser α) :=
  match new, c.totalWeight with
  | [], _ => some { c with choices := c.choices ++ new }
  | _ :: _, none => none
  | _ :: _, some w =>
    some { choices := c.choices ++ new,
           totalWeight := some (new.foldl (fun acc ch => acc + ch.weight) w) }

/-- Number of bits with explicit fuel, so the kernel can evaluate it. -/
def bitLenFuel : Nat → Nat → Nat
  | 0, _ => 0
  | fuel + 1, n => if n = 0 then 0 else bitLenFuel fuel (n / 2) + 1

/-- Length of the binary representation; model of big.Int.BitLen. -/
def bitLen (n : Nat) : Nat :=
  bitLenFuel n n

/-- Big-endian byte-list to natural; model of big.Int.SetBytes. -/
def bytesBE (bs : List Nat) : Nat :=
  bs.foldl (fun acc b => acc * 256 + b) 0

/-- Errors Choose can return. -/
inductive ChooseErr where
  | emptyOrZeroWeight
  | positionNotFound
  deriving DecidableEq

/-- Outcome of a Choose call: a returned item, a returned error, or a
runtime panic (the nil totalWeight dereferenced by Cmp). -/
inductive ChooseOutcome (α : Type) where
  | ok (a : α)
  | error (e : ChooseErr)
  | crash

/-- The cumulative scan at the end of Choose: return the first choice whose
weight exceeds the remaining position, subtracting weights as it walks. -/
def chooseScan {α : Type} : List (Choice α) → Nat → Except ChooseErr α
  | [], _ => .error .positionNotFound
  | ch :: rest, pos =>
    if pos < ch.weight then .ok ch.data
    else chooseScan rest (pos - ch.weight)

/-- The scan result returned by Choose. -/
def exceptToOutcome {α : Type} : Except ChooseErr α → ChooseOutcome α
  | .ok a => .ok a
  | .error e => .error e

/-- Model of Chooser.Choose.  The guard short-circuits: with no choices it
returns the error before touching totalWeight; with choices present,
totalWeight.Cmp dereferences the pointer, so a nil totalWeight is a panic
(crash).  The random provider is a byte stream; Read fills a buffer of
c.totalWeight.BitLen() bytes (the source allocates by bit count, not byte
count — byteLength is computed but only unusedBits is used, for masking the
first byte).  The masked buffer is reduced modulo totalWeight and fed to
the cumulative scan. -/
def choose {α : Type} (c : Chooser α) (stream : Nat → Nat) : ChooseOutcome α :=
  if c.choices.length = 0 then .error .emptyOrZeroWeight
  else
    match c.totalWeight with
    | none => .crash
    | some w =>
      if w = 0 then .error .emptyOrZeroWeight
      else
        let bitLength := bitLen w
        let unusedBits := bitLength % 8
        let randomData := (List.range (bitLen w)).map (fun i => stream i % 256)
        let masked :=
          match randomData with
          | [] => []
          | b0 :: rest => (b0 &&& (255 >>> unusedBits)) :: rest
        let selectedWeightPosition := bytesBE masked % w
        exceptToOutcome (chooseScan c.choices selectedWeightPosition)

/-- Sum of the weights of a choice list. -/
def weightSum {α : Type} (l : List (Choice α)) : Nat :=
  (l.map (fun ch => ch.weight)).sum

theorem foldl_add_weight {α : Type} (l : List (Choice α)) :
    ∀ acc, l.foldl (fun a ch => a + ch.weight) acc = acc + weightSum l := by
  induction l with
  | nil => intro acc; simp [weightSum]
  | cons ch rest ih =>
    intro acc
    simp only [List.foldl_cons, ih, weightSum, List.map_cons, List.sum_cons]
    omega

/-- Whenever AddChoices returns (instead of panicking on a nil total), it
keeps the cached total equal to the sum of all weights. -/
theorem addChoices_weightSum {α : Type} (c : Chooser α) (new : List (Choice α))
    (c2 : Chooser α) (hinv : c.totalWeight = some (weightSum c.choices))
    (hok : addChoices c new = some c2) :
    c2.totalWeight = some (weightSum c2.choices) := by
  cases new with
  | nil =>
    simp only [addChoices] at hok
    obtain rfl := Option.some_injective _ hok
    simpa using hinv
  | cons ch rest =>
    simp only [addChoices, hinv] at hok
    obtain rfl := Option.some_injective _ hok
    simp only [foldl_add_weight]
    congr 1
    simp [weightSum]

theorem chooseScan_ok_of_lt {α : Type} :
    ∀ (l : List (Choice α)) (pos : Nat), pos < weightSum l → ∃ a, chooseScan l pos = .ok a := by
  intro l
  induction l with
  | nil =>
    intro pos h
    simp [weightSum] at h
  | cons ch rest ih =>
    intro pos h
    by_cases hlt : pos < ch.weight
    · exact ⟨ch.data, by simp [chooseScan, if_pos hlt]⟩
    · have hrest : pos - ch.weight < weightSum rest := by
        simp only [weightSum, List.map_cons, List.sum_cons] at h
        simp only [weightSum]
        omega
      obtain ⟨a, ha⟩ := ih (pos - ch.weight) hrest
      exact ⟨a, by simp [chooseScan, if_neg hlt, ha]⟩

theorem chooseScan_mem {α : Type} :
    ∀ (l : List (Choice α)) (pos : Nat) (a : α), chooseScan l pos = .ok a →
      ∃ ch, ch ∈ l ∧ ch.data = a ∧ 0 < ch.weight := by
  intro l
  induction l with
  | nil => intro pos a h; cases h
  | cons ch rest ih =>
    intro pos a h
    by_cases hlt : pos < ch.weight
    · rw [chooseScan, if_pos hlt] at h
      cases h
      exact ⟨ch, List.mem_cons_self ch rest, rfl, by omega⟩
    · rw [chooseScan, if_neg hlt] at h
      obtain ⟨ch2, hmem, hdata, hw⟩ := ih (pos - ch.weight) a h
      exact ⟨ch2, List.mem_cons_of_mem _ hmem, hdata, hw⟩

/-- Unfolding the scan-result conversion on a returned item. -/
theorem exceptToOutcome_eq_ok {α : Type} (x : Except ChooseErr α) (a : α) :
    exceptToOutcome x = .ok a ↔ x = .ok a := by
  cases x <;> simp [exceptToOutcome]

/-- The C4 helper: any item Choose returns belongs to a choice of positive
weight (the cumulative scan only returns on position < weight, and the
position is a natural number). -/
theorem choose_ok_mem {α : Type} (c : Chooser α) (stream : Nat → Nat) (a : α)
    (h : choose c stream = .ok a) :
    ∃ ch, ch ∈ c.choices ∧ ch.data = a ∧ 0 < ch.weight := by
  by_cases hlen : c.choices.length = 0
  · simp only [choose, if_pos hlen] at h
    cases h
  · simp only [choose, if_neg hlen] at h
    cases hw : c.totalWeight with
    | none =>
      simp only [hw] at h
      cases h
    | some w =>
      simp only [hw] at h
      by_cases hw0 : w = 0
      · rw [if_pos hw0] at h
        cases h
      · rw [if_neg hw0] at h
        exact chooseScan_mem _ _ _ ((exceptToOutcome_eq_ok _ _).mp h)

/-- Claim C3: Choose fails exactly on an empty choice set or zero total
weight; with at least one choice and positive total weight (under the
struct's documented invariant that the cached total is the sum of all
weights, which AddChoices preserves whenever it returns) it returns an
item for every random-provider state, so the final
selected-position-missing branch is unreachable. -/
theorem choose_error_iff_empty_or_zero {α : Type} (c : Chooser α) (stream : Nat → Nat)
    (hinv : c.totalWeight = some (weightSum c.choices)) :
    ((c.choices = [] ∨ c.totalWeight = some 0) →
        choose c stream = .error .emptyOrZeroWeight) ∧
      (c.choices ≠ [] → c.totalWeight ≠ some 0 → ∃ a, choose c stream = .ok a) := by
  constructor
  · intro h
    rcases h with h1 | h2
    · have hlen : c.choices.length = 0 := by simp [h1]
      simp only [choose, if_pos hlen]
    · by_cases hlen : c.choices.length = 0
      · simp only [choose, if_pos hlen]
      · simp only [choose, if_neg hlen, h2]
        simp
  · intro hne hnz
    have hlen : ¬c.choices.length = 0 := by simpa using hne
    have hwz : weightSum c.choices ≠ 0 := by
      intro h0
      exact hnz (by rw [hinv, h0])
    simp only [choose, if_neg hlen, hinv]
    rw [if_neg hwz]
    obtain ⟨a, ha⟩ :=
      chooseScan_ok_of_lt c.choices _ (Nat.mod_lt _ (Nat.pos_of_ne_zero hwz))
    exact ⟨a, by rw [ha]; rfl⟩

/-- The chooser state the CHOOSE1 scenario intends: items (1,a), (0,b),
(3,c) with their cached weight sum.  In this source the constructor path
cannot build it: the first AddChoices panics on the fresh chooser's nil
totalWeight. -/
def chooserABC : Chooser String :=
  { choices := [⟨"a", 1⟩, ⟨"b", 0⟩, ⟨"c", 3⟩], totalWeight := some 4 }

/-- Witness for C3 at a concrete chooser state and stream. -/
theorem choose_error_iff_empty_or_zero_witness :
    ∃ a, choose chooserABC (fun _ => 0) = .ok a :=
  (choose_error_iff_empty_or_zero chooserABC (fun _ => 0) rfl).2
    (by simp [chooserABC]) (by simp [chooserABC])

/-- Claim C4 (code-bug evaluation): the claim's own construction scenario
panics in this source — AddChoices on a freshly constructed chooser
dereferences the nil totalWeight that NewChooserWithRand leaves (modelled
none) — so the insertion never completes; on the chooser state the
scenario intends, Choose indeed never returns the zero-weight item b, for
any byte stream. -/
theorem addChoices_nil_totalWeight_panics :
    addChoices (newChooser String) [⟨"a", 1⟩, ⟨"b", 0⟩, ⟨"c", 3⟩] = none ∧
      ∀ stream : Nat → Nat, choose chooserABC stream ≠ .ok "b" := by
  refine ⟨rfl, ?_⟩
  intro stream h
  obtain ⟨ch, hmem, hdata, hw⟩ := choose_ok_mem chooserABC stream "b" h
  have hch : ch = ⟨"a", 1⟩ ∨ ch = ⟨"b", 0⟩ ∨ ch = ⟨"c", 3⟩ := by
    simpa [chooserABC] using hmem
  rcases hch with h1 | h2 | h3
  · rw [h1] at hdata; simp at hdata
  · rw [h2] at hw; simp at hw
  · rw [h3] at hdata; simp at hdata

/-- A chooser exhibiting the byte-count bug of Choose: total weight 256 has
BitLen 9, so ceil(9/8) = 2 bytes suffice, but the source allocates
BitLen() = 9 bytes. -/
def chooserByteBug : Chooser Nat :=
  { choices := [⟨0, 1⟩, ⟨1, 255⟩], totalWeight := some 256 }

/-- An all-zero byte stream. -/
def streamZeros : Nat → Nat := fun _ => 0

/-- A byte stream agreeing with streamZeros on the first two bytes (the
bytes the claim says are the only ones drawn) but differing at index 8. -/
def streamNinthByte : Nat → Nat := fun i => if i = 8 then 1 else 0

/-- Claim C2 (refuting evaluation): Choose's outcome depends on the ninth
drawn byte even though the total weight 256 fits in ceil(BitLen/8) = 2
bytes: the two streams agree on bytes 0 and 1 yet select different items,
because the source sizes the buffer by BitLen() and folds it in by modulo
rather than drawing ceil(BitLen/8) bytes and rejection-sampling. -/
theorem choose_draws_bitlen_bytes :
    streamZeros 0 = streamNinthByte 0 ∧ streamZeros 1 = streamNinthByte 1 ∧
      choose chooserByteBug streamZeros = .ok 0 ∧
      choose chooserByteBug streamNinthByte = .ok 1 ∧
      chooserByteBug.totalWeight = some 256 ∧ bitLen 256 = 9 :=
  ⟨rfl, rfl, rfl, rfl, rfl, rfl⟩

/-! ### Project configuration validation (package config) -/

/-- Property-testing options (struct PropertyTestConfig); only the fields
read by Validate are modelled. -/
structure PropertyTestConfig where
  enabled : Bool
  testPrefixes : List GoStr

/-- Testing options (struct TestingConfig); only the fields read by
Validate are modelled. -/
structure TestingConfig where
  propertyTesting : PropertyTestConfig

/-- Fuzzing options (struct FuzzingConfig); only the fields read by
Validate are modelled (workers, workerResetLimit and callSequenceLength are
Go int, the gas limits are uint64). -/
structure FuzzingConfig where
  workers : Int
  workerResetLimit : Int
  callSequenceLength : Int
  deployerAddress : GoStr
  senderAddresses : List GoStr
  blockGasLimit : Nat
  transactionGasLimit : Nat
  testing : TestingConfig

/-- Project configuration (struct ProjectConfig); the compilation section is
not read by Validate and is left out. -/
structure ProjectConfig where
  fuzzing : FuzzingConfig

/-- Modelled from the spec: utils.HexStringToAddress and
utils.HexStringsToAddresses are not among the given sources; the spec
describes the configured deployer and sender entries as hex strings of a
20-byte address (hex_address).  A well-formed string is an optional 0x/0X
marker followed by exactly 40 hex digits. -/
def isWellFormedHexAddress (s : GoStr) : Bool :=
  let s1 := if has0x s then s.drop 2 else s
  s1.length = 40 && s1.all (fun c => (hexCharVal c).isSome)

/-- The errors Validate can return, in source order. -/
inductive ConfigErr where
  | nonPositiveWorkers
  | nonPositiveCallSequenceLength
  | nonPositiveWorkerResetLimit
  | blockGasBelowTxGas
  | zeroGasLimit
  | malformedSender
  | malformedDeployer
  | missingPropertyTestNames
  deriving DecidableEq

/-- Model of ProjectConfig.Validate: the checks in source order; none
models a nil error. -/
def validate (p : ProjectConfig) : Option ConfigErr :=
  if p.fuzzing.workers ≤ 0 then some .nonPositiveWorkers
  else if p.fuzzing.callSequenceLength ≤ 0 then some .nonPositiveCallSequenceLength
  else if p.fuzzing.workerResetLimit ≤ 0 then some .nonPositiveWorkerResetLimit
  else if p.fuzzing.blockGasLimit < p.fuzzing.transactionGasLimit then some .blockGasBelowTxGas
  else if p.fuzzing.blockGasLimit = 0 ∨ p.fuzzing.transactionGasLimit = 0 then some .zeroGasLimit
  else if p.fuzzing.senderAddresses.all isWellFormedHexAddress = false then some .malformedSender
  else if isWellFormedHexAddress p.fuzzing.deployerAddress = false then some .malformedDeployer
  else if p.fuzzing.testing.propertyTesting.enabled &&
      p.fuzzing.testing.propertyTesting.testPrefixes.isEmpty then some .missingPropertyTestNames
  else none

/-- Claim C5: Validate rejects every configuration with non-positive
workers or call-sequence length, a block gas limit below the transaction
gas limit, a zero gas limit, or a malformed sender or deployer address; and
it returns nil exactly when none of its rejection conditions (which also
include a non-positive worker reset limit and property testing enabled with
no test-name markers) hold. -/
theorem validate_rejects_and_accepts (p : ProjectConfig) :
    ((p.fuzzing.workers ≤ 0 ∨ p.fuzzing.callSequenceLength ≤ 0 ∨
        p.fuzzing.blockGasLimit < p.fuzzing.transactionGasLimit ∨
        p.fuzzing.blockGasLimit = 0 ∨ p.fuzzing.transactionGasLimit = 0 ∨
        p.fuzzing.senderAddresses.all isWellFormedHexAddress = false ∨
        isWellFormedHexAddress p.fuzzing.deployerAddress = false) →
      (validate p).isSome) ∧
    (validate p = none ↔
      (0 < p.fuzzing.workers ∧ 0 < p.fuzzing.callSequenceLength ∧
        0 < p.fuzzing.workerResetLimit ∧
        p.fuzzing.transactionGasLimit ≤ p.fuzzing.blockGasLimit ∧
        p.fuzzing.blockGasLimit ≠ 0 ∧ p.fuzzing.transactionGasLimit ≠ 0 ∧
        p.fuzzing.senderAddresses.all isWellFormedHexAddress = true ∧
        isWellFormedHexAddress p.fuzzing.deployerAddress = true ∧
        (p.fuzzing.testing.propertyTesting.enabled = true →
          p.fuzzing.testing.propertyTesting.testPrefixes ≠ []))) := by
  unfold validate
  constructor
  · intro h
    split_ifs <;> simp_all
  · constructor
    · intro h
      split_ifs at h with h1 h2 h3 h4 h5 h6 h7 h8 <;> try cases h
      refine ⟨by omega, by omega, by omega, by omega, ?_, ?_, ?_, ?_, ?_⟩
      · tauto
      · tauto
      · simpa using h6
      · simpa using h7
      · intro he
        simp only [he, Bool.true_and] at h8
        simpa [List.isEmpty_iff] using h8
    · intro ⟨ha, hb, hc, hd, he, hf, hg, hh, hi⟩
      split_ifs with h1 h2 h3 h4 h5 h6 h7 h8
      · omega
      · omega
      · omega
      · omega
      · tauto
      · simp_all
      · simp_all
      · exfalso
        simp only [Bool.and_eq_true, List.isEmpty_iff] at h8
        exact hi h8.1 h8.2
      · rfl

/-- Witness for C5: a configuration with zero workers is rejected, and a
fully well-formed configuration is accepted. -/
theorem validate_rejects_and_accepts_witness :
    (validate ⟨⟨0, 1, 1, '0' :: 'x' :: List.replicate 40 '0', [], 2, 1, ⟨⟨false, []⟩⟩⟩⟩).isSome ∧
      validate ⟨⟨1, 1, 1, '0' :: 'x' :: List.replicate 40 '0', [], 2, 1, ⟨⟨false, []⟩⟩⟩⟩ = none :=
  ⟨(validate_rejects_and_accepts _).1 (by decide),
    (validate_rejects_and_accepts _).2.mpr (by decide)⟩

/-! ### Shrinking value generator (value_generator_shrinking.go)

Randomness is made explicit: every call of randomProvider.Intn(n) in the
source becomes a parameter that the model reduces modulo n, so the theorems
quantify over all possible draws. -/

/-- Shrinking generator state: the integers of its ValueSet (the only part
of the value set the integer shrinking methods read). -/
structure ShrinkingValueGenerator where
  valueSetIntegers : List Int

/-- Model of NewShrinkingValueGenerator: ensures 0, 1 and 2 are in the
value set. -/
def NewShrinkingValueGenerator (vs : List Int) : ShrinkingValueGenerator :=
  ⟨vs ++ [0, 1, 2]⟩

/-- Modelled from the spec: utils.GetIntegerConstraints is not among the
given sources; the spec gives signed b-bit values the two's-complement
range and unsigned values the modulo-2^b range, so min/max are
[-2^(b-1), 2^(b-1)-1] when signed and [0, 2^b-1] otherwise. -/
def GetIntegerConstraints (signed : Bool) (bitLength : Nat) : Int × Int :=
  if signed then (-(2 ^ (bitLength - 1) : Int), (2 ^ (bitLength - 1) : Int) - 1)
  else (0, (2 ^ bitLength : Int) - 1)

/-- Modelled from the spec: utils.ConstrainIntegerToBounds is not among the
given sources; the spec says overflow wraps via two's-complement on signed
and modulo on unsigned widths, i.e. an out-of-range value is wrapped into
[mn, mx] by min-anchored modulo. -/
def ConstrainIntegerToBounds (x : Int) (mn mx : Int) : Int :=
  if mn ≤ x ∧ x ≤ mx then x
  else mn + (x - mn) % (mx - mn + 1)

/-- First integer shrinking method: subtract (positive x) or add (negative
x) a random element of the inputs.  The source assigns the result r only in
the two guarded branches, so when x = 0 it returns a nil *big.Int,
modelled by none. -/
def shrinkMethodSubtract (x : Int) (inputs : List Int) (idx : Nat) : Option Int :=
  if 0 < x then some (x - inputs.getD (idx % inputs.length) 0)
  else if x < 0 then some (x + inputs.getD (idx % inputs.length) 0)
  else none

/-- Second integer shrinking method: divide by two.  big.Int.Div implements
Euclidean division, hence Int.ediv. -/
def shrinkMethodDivTwo (x : Int) : Option Int :=
  some (Int.ediv x 2)

/-- Model of shrinkIntegerInternal.  A none result stands for the nil
*big.Int that the source would then pass to ConstrainIntegerToBounds,
making it dereference nil (a runtime panic). -/
def shrinkIntegerInternal (vs : List Int) (i : Option Int) (signed : Bool)
    (bitLength : Nat) (inputIdx methodIdx subIdx : Nat) : Option Int :=
  let c := GetIntegerConstraints signed bitLength
  let inputs := vs ++ (if signed then [c.1, c.2] else [c.2])
  let start : Int :=
    match i with
    | some v => v
    | none => inputs.getD (inputIdx % inputs.length) 0
  let constrained := ConstrainIntegerToBounds start c.1 c.2
  let shrunk :=
    if methodIdx % 2 = 0 then shrinkMethodSubtract constrained inputs subIdx
    else shrinkMethodDivTwo constrained
  match shrunk with
  | some y => some (ConstrainIntegerToBounds y c.1 c.2)
  | none => none

/-- Model of ShrinkingValueGenerator.MutateInteger. -/
def MutateInteger (g : ShrinkingValueGenerator) (i : Option Int) (signed : Bool)
    (bitLength : Nat) (inputIdx methodIdx subIdx : Nat) : Option Int :=
  shrinkIntegerInternal g.valueSetIntegers i signed bitLength inputIdx methodIdx subIdx

/-- Claim C7 (refuting evaluation): on input 0 the subtract shrinking
method assigns no result, so MutateInteger produces the nil big.Int
(modelled none) instead of a non-nil in-range integer, for both the
unsigned and the signed 8-bit width. -/
theorem MutateInteger_nil_on_zero :
    MutateInteger (NewShrinkingValueGenerator []) (some 0) false 8 0 0 0 = none ∧
      MutateInteger (NewShrinkingValueGenerator []) (some 0) true 8 0 0 0 = none :=
  ⟨rfl, rfl⟩

/-! #### Byte-slice shrinking -/

/-- First bytes shrinking method: zero out one byte. -/
def shrinkBytesReplaceZero (b : List Nat) (idx : Nat) : List Nat :=
  if b.length = 0 then b else b.set (idx % b.length) 0

/-- Second bytes shrinking method: remove one byte. -/
def shrinkBytesRemove (b : List Nat) (idx : Nat) : List Nat :=
  if b.length = 0 then b else b.eraseIdx (idx % b.length)

/-- Model of shrinkBytesInternal: one randomly selected method applied
once. -/
def shrinkBytesInternal (b : List Nat) (methodIdx idx : Nat) : List Nat :=
  if methodIdx % 2 = 0 then shrinkBytesReplaceZero b idx else shrinkBytesRemove b idx

/-! #### UTF-8 (models of the Go rune/string conversions used by the string
shrinking methods; Go strings are byte sequences here) -/

/-- Continuation byte test. -/
def utf8Cont (b : Nat) : Bool := 0x80 ≤ b && b ≤ 0xBF

/-- Accepted second-byte range of a three-byte sequence (excludes overlong
forms and surrogates, as Go does). -/
def utf8Accept2 (b0 b1 : Nat) : Bool :=
  if b0 = 0xE0 then 0xA0 ≤ b1 && b1 ≤ 0xBF
  else if b0 = 0xED then 0x80 ≤ b1 && b1 ≤ 0x9F
  else 0x80 ≤ b1 && b1 ≤ 0xBF

/-- Accepted second-byte range of a four-byte sequence. -/
def utf8Accept3 (b0 b1 : Nat) : Bool :=
  if b0 = 0xF0 then 0x90 ≤ b1 && b1 ≤ 0xBF
  else if b0 = 0xF4 then 0x80 ≤ b1 && b1 ≤ 0x8F
  else 0x80 ≤ b1 && b1 ≤ 0xBF

/-- Model of the []rune(s) conversion: Go UTF-8 decoding where every
invalid or truncated sequence yields U+FFFD consuming one byte.  Fuel makes
the recursion structural (each step consumes at least one byte). -/
def utf8DecodeFuel : Nat → List Nat → List Nat
  | 0, _ => []
  | _ + 1, [] => []
  | fuel + 1, b0 :: rest =>
    if b0 < 0x80 then b0 :: utf8DecodeFuel fuel rest
    else if 0xC2 ≤ b0 ∧ b0 ≤ 0xDF then
      match rest with
      | b1 :: rest1 =>
        if utf8Cont b1 then ((b0 - 0xC0) * 64 + (b1 - 0x80)) :: utf8DecodeFuel fuel rest1
        else 0xFFFD :: utf8DecodeFuel fuel rest
      | [] => 0xFFFD :: utf8DecodeFuel fuel []
    else if 0xE0 ≤ b0 ∧ b0 ≤ 0xEF then
      match rest with
      | b1 :: b2 :: rest2 =>
        if utf8Accept2 b0 b1 && utf8Cont b2 then
          ((b0 - 0xE0) * 4096 + (b1 - 0x80) * 64 + (b2 - 0x80)) :: utf8DecodeFuel fuel rest2
        else 0xFFFD :: utf8DecodeFuel fuel rest
      | _ => 0xFFFD :: utf8DecodeFuel fuel rest
    else if 0xF0 ≤ b0 ∧ b0 ≤ 0xF4 then
      match rest with
      | b1 :: b2 :: b3 :: rest3 =>
        if utf8Accept3 b0 b1 && utf8Cont b2 && utf8Cont b3 then
          ((b0 - 0xF0) * 262144 + (b1 - 0x80) * 4096 + (b2 - 0x80) * 64 + (b3 - 0x80)) ::
            utf8DecodeFuel fuel rest3
        else 0xFFFD :: utf8DecodeFuel fuel rest
      | _ => 0xFFFD :: utf8DecodeFuel fuel rest
    else 0xFFFD :: utf8DecodeFuel fuel rest

/-- Rune sequence of a Go string (byte list). -/
def utf8DecodeRunes (s : List Nat) : List Nat :=
  utf8DecodeFuel s.length s

/-- Model of utf8.EncodeRune / the per-rune step of the string([]rune)
conversion; surrogates and out-of-range values encode U+FFFD. -/
def utf8EncodeRune (r : Nat) : List Nat :=
  if r < 0x80 then [r]
  else if r < 0x800 then [0xC0 + r / 64, 0x80 + r % 64]
  else if 0xD800 ≤ r ∧ r < 0xE000 then [0xEF, 0xBF, 0xBD]
  else if r < 0x10000 then [0xE0 + r / 4096, 0x80 + r / 64 % 64, 0x80 + r % 64]
  else if r < 0x110000 then
    [0xF0 + r / 262144, 0x80 + r / 4096 % 64, 0x80 + r / 64 % 64, 0x80 + r % 64]
  else [0xEF, 0xBF, 0xBD]

/-- Model of the string([]rune) conversion. -/
def utf8EncodeRunes (rs : List Nat) : List Nat :=
  (rs.map utf8EncodeRune).flatten

/-! #### String shrinking -/

/-- First string shrinking method: convert to runes, replace one rune by
NUL, convert back (the source returns string(r) unchanged when there are no
runes). -/
def shrinkStringReplaceNUL (s : List Nat) (idx : Nat) : List Nat :=
  let r := utf8DecodeRunes s
  if r.length = 0 then utf8EncodeRunes r
  else utf8EncodeRunes (r.set (idx % r.length) 0)

/-- Second string shrinking method: despite its remove-a-character comment
the source indexes by len(s) and concatenates s[:i] and s[i+1:], removing
one byte. -/
def shrinkStringRemoveByte (s : List Nat) (idx : Nat) : List Nat :=
  if s.length = 0 then s else s.eraseIdx (idx % s.length)

/-- Model of shrinkStringInternal / MutateString: one randomly selected
method applied once. -/
def MutateString (s : List Nat) (methodIdx idx : Nat) : List Nat :=
  if methodIdx % 2 = 0 then shrinkStringReplaceNUL s idx else shrinkStringRemoveByte s idx

/-- Model of ShrinkingValueGenerator.MutateAddress: a fresh zero byte
slice converted to an address. -/
def MutateAddress (_addr : AddressBytes) : AddressBytes :=
  bytesToAddress (List.replicate 20 0)

theorem utf8EncodeRune_length_pos (r : Nat) : 1 ≤ (utf8EncodeRune r).length := by
  unfold utf8EncodeRune
  split_ifs <;> simp

theorem utf8EncodeRunes_cons (x : Nat) (xs : List Nat) :
    utf8EncodeRunes (x :: xs) = utf8EncodeRune x ++ utf8EncodeRunes xs := by
  simp [utf8EncodeRunes]

theorem utf8EncodeRunes_set_zero_length (rs : List Nat) :
    ∀ j, (utf8EncodeRunes (rs.set j 0)).length ≤ (utf8EncodeRunes rs).length := by
  induction rs with
  | nil => intro j; simp
  | cons x xs ih =>
    intro j
    cases j with
    | zero =>
      simp only [List.set_cons_zero, utf8EncodeRunes_cons, List.length_append]
      have h1 : (utf8EncodeRune 0).length = 1 := rfl
      have h2 := utf8EncodeRune_length_pos x
      omega
    | succ j2 =>
      simp only [List.set_cons_succ, utf8EncodeRunes_cons, List.length_append]
      have := ih j2
      omega

theorem length_eraseIdx_le {α : Type} (l : List α) : ∀ i, (l.eraseIdx i).length ≤ l.length := by
  induction l with
  | nil => intro i; simp [List.eraseIdx]
  | cons x xs ih =>
    intro i
    cases i with
    | zero => simp [List.eraseIdx]
    | succ i2 =>
      simp only [List.eraseIdx, List.length_cons]
      have := ih i2
      omega

/-- Claim C8 (refuting evaluation): on the two-byte string FF FF (not valid
UTF-8) the NUL-replacement method grows the byte length from 2 to 4,
because []rune(s) turns each invalid byte into U+FFFD, which re-encodes as
three bytes. -/
theorem MutateString_grows_on_invalid_utf8 :
    MutateString [0xFF, 0xFF] 0 0 = [0x00, 0xEF, 0xBF, 0xBD] ∧
      ¬((MutateString [0xFF, 0xFF] 0 0).length ≤ ([0xFF, 0xFF] : List Nat).length) :=
  ⟨rfl, by decide⟩

/-- Claim C8 (amended): for strings whose bytes survive the rune round trip
(valid UTF-8), every string shrinking method does not increase the byte
length; every bytes shrinking method does not increase the length of any
byte slice; and MutateAddress always returns the zero address. -/
theorem shrinking_generator_contractive (s b : List Nat) (a : AddressBytes)
    (mS iS mB iB : Nat)
    (hvalid : utf8EncodeRunes (utf8DecodeRunes s) = s) :
    (MutateString s mS iS).length ≤ s.length ∧
      (shrinkBytesInternal b mB iB).length ≤ b.length ∧
      MutateAddress a = List.replicate 20 0 := by
  refine ⟨?_, ?_, rfl⟩
  · unfold MutateString
    split_ifs with hm
    · simp only [shrinkStringReplaceNUL]
      split_ifs with hr
      · rw [hvalid]
      · calc (utf8EncodeRunes ((utf8DecodeRunes s).set (iS % (utf8DecodeRunes s).length) 0)).length
            ≤ (utf8EncodeRunes (utf8DecodeRunes s)).length :=
              utf8EncodeRunes_set_zero_length _ _
          _ = s.length := by rw [hvalid]
    · unfold shrinkStringRemoveByte
      split_ifs with hs
      · exact Nat.le_refl _
      · exact length_eraseIdx_le s _
  · unfold shrinkBytesInternal
    split_ifs with hm
    · unfold shrinkBytesReplaceZero
      split_ifs with hb
      · exact Nat.le_refl _
      · rw [List.length_set]
    · unfold shrinkBytesRemove
      split_ifs with hb
      · exact Nat.le_refl _
      · exact length_eraseIdx_le b _

/-- Witness for the amended C8 at concrete inputs. -/
theorem shrinking_generator_contractive_witness :
    (MutateString [97, 98] 0 0).length ≤ ([97, 98] : List Nat).length ∧
      (shrinkBytesInternal [5] 1 0).length ≤ ([5] : List Nat).length ∧
      MutateAddress (List.replicate 20 1) = List.replicate 20 0 :=
  shrinking_generator_contractive [97, 98] [5] (List.replicate 20 1) 0 0 1 0 rfl

/-! ### ABI-typed JSON argument encoding and decoding (abi_values.go)

The go-ethereum abi.Type values are modelled by AbiType; the Go any values
passed around by encodeJSONArgument/decodeJSONArgument are modelled by
AbiValue (the size carried by uintV/intV stands for the dynamic Go type:
uint8/16/32/64, int8/16/32/64, or *big.Int for every other size); generic
JSON values (the result of encoding) are modelled by JVal. -/

/-- Generic JSON values (Go any holding string, bool, number, []any or
map[string]any; the map is an association list, which coincides with Go map
semantics for the distinct keys produced here). -/
inductive JVal where
  | str (s : GoStr)
  | bool (b : Bool)
  | num (q : Int)
  | arr (elems : List JVal)
  | obj (fields : List (GoStr × JVal))

/-- Solidity-style ABI types (abi.Type restricted to the kinds the encoder
and decoder handle). -/
inductive AbiType where
  | address
  | uint (size : Nat)
  | int (size : Nat)
  | bool
  | string
  | bytes
  | fixedBytes (size : Nat)
  | array (elem : AbiType) (size : Nat)
  | slice (elem : AbiType)
  | tuple (fields : List (GoStr × AbiType))

/-- ABI argument values (the Go any values). -/
inductive AbiValue where
  | addr (b : AddressBytes)
  | uintV (size : Nat) (n : Int)
  | intV (size : Nat) (n : Int)
  | boolV (b : Bool)
  | strV (s : GoStr)
  | bytesV (b : List Nat)
  | fixedBytesV (b : List Nat)
  | arrV (elems : List AbiValue)
  | sliceV (elems : List AbiValue)
  | tupleV (fields : List AbiValue)

/-- Association-list lookup (Go map read). -/
def lookupStr {β : Type} : List (GoStr × β) → GoStr → Option β
  | [], _ => none
  | (k, v) :: rest, key => if k = key then some v else lookupStr rest key

/-- The native Go integer width of an ABI integer size: 8/16/32/64 map to
the fixed-width types, everything else to *big.Int (class 0).  Two sizes
share a Go dynamic type exactly when their classes agree. -/
def sizeClass (s : Nat) : Nat :=
  if s = 8 ∨ s = 16 ∨ s = 32 ∨ s = 64 then s else 0

/-- Model of big.Int.Uint64: the low 64 bits of the absolute value. -/
def goBigUint64 (v : Int) : Nat :=
  v.natAbs % 2 ^ 64

/-- Model of big.Int.Int64: the low 64 bits reinterpreted as a signed
two's-complement value (the implementation negates the low bits of the
absolute value, which coincides with this wrap). -/
def goBigInt64 (v : Int) : Int :=
  (v + 2 ^ 63) % 2 ^ 64 - 2 ^ 63

/-- Go conversion uintN(x): keep the low bits. -/
def truncUnsigned (bits : Nat) (x : Nat) : Nat :=
  x % 2 ^ bits

/-- Go conversion intN(x): two's-complement wrap into the signed range. -/
def wrapSigned (bits : Nat) (x : Int) : Int :=
  (x + 2 ^ (bits - 1)) % 2 ^ bits - 2 ^ (bits - 1)

/-- The switch over inputType.Size in the UintTy branch of
decodeJSONArgument. -/
def goDecodeUintSwitch (size : Nat) (val : Int) : Int :=
  if size = 64 then (goBigUint64 val : Int)
  else if size = 32 then (truncUnsigned 32 (goBigUint64 val) : Int)
  else if size = 16 then (truncUnsigned 16 (goBigUint64 val) : Int)
  else if size = 8 then (truncUnsigned 8 (goBigUint64 val) : Int)
  else val

/-- The switch over inputType.Size in the IntTy branch of
decodeJSONArgument. -/
def goDecodeIntSwitch (size : Nat) (val : Int) : Int :=
  if size = 64 then goBigInt64 val
  else if size = 32 then wrapSigned 32 (goBigInt64 val)
  else if size = 16 then wrapSigned 16 (goBigInt64 val)
  else if size = 8 then wrapSigned 8 (goBigInt64 val)
  else val

mutual

/-- Model of encodeJSONArgument.  The casing argument abstracts the EIP-55
checksum case pattern of common.Address.String (per address); none models a
returned error.  In the FixedBytesTy branch the source converts the value
without a type check (its TODO) and would panic on a non-array value; that
unreachable-for-well-typed-values case is modelled as none. -/
def encodeJSONArgument (casing : AddressBytes → Nat → Bool) :
    AbiType → AbiValue → Option JVal
  | .address, .addr b => some (.str (goAddressString (casing b) b))
  | .address, _ => none
  | .uint s, .uintV vs n =>
    if sizeClass vs = sizeClass s then some (.str (formatInt n)) else none
  | .uint _, _ => none
  | .int s, .intV vs n =>
    if sizeClass vs = sizeClass s then some (.str (formatInt n)) else none
  | .int _, _ => none
  | .bool, .boolV b => some (.bool b)
  | .bool, _ => none
  | .string, .strV s => some (.str s)
  | .string, _ => none
  | .bytes, .bytesV b => some (.str (hexEncodeLower b))
  | .bytes, _ => none
  | .fixedBytes _, .fixedBytesV b => some (.str (hexEncodeLower b))
  | .fixedBytes _, _ => none
  | .array e _, .arrV vs => (encodeList casing e vs).map .arr
  | .array _ _, _ => none
  | .slice e, .sliceV vs => (encodeList casing e vs).map .arr
  | .slice _, _ => none
  | .tuple fields, .tupleV vs => (encodeFields casing fields vs).map .obj
  | .tuple _, _ => none
termination_by t v => (sizeOf t, 0)

/-- The element loop shared by the ArrayTy and SliceTy branches of
encodeJSONArgument. -/
def encodeList (casing : AddressBytes → Nat → Bool) (e : AbiType) :
    List AbiValue → Option (List JVal)
  | [] => some []
  | v :: rest =>
    match encodeJSONArgument casing e v with
    | some j => (encodeList casing e rest).map (fun js => j :: js)
    | none => none
termination_by l => (sizeOf e, l.length + 1)

/-- The field loop of the TupleTy branch of encodeJSONArgument: pairs the
i-th tuple element type and raw name with the i-th struct field value (a Go
struct value always has exactly the fields of its type; a length mismatch
is modelled as an error). -/
def encodeFields (casing : AddressBytes → Nat → Bool) :
    List (GoStr × AbiType) → List AbiValue → Option (List (GoStr × JVal))
  | [], [] => some []
  | (name, t) :: frest, v :: vrest =>
    (match encodeJSONArgument casing t v with
      | some j => (encodeFields casing frest vrest).map (fun fs => (name, j) :: fs)
      | none => none)
  | _, _ => none
termination_by fl vl => (sizeOf fl, 0)

end

/-- Outcome of a decode: a value, a returned error, or a runtime panic. -/
inductive DecodeOutcome where
  | ok (v : AbiValue)
  | err
  | crash

/-- Outcome of a decode loop over several values. -/
inductive DecodeListOutcome where
  | okL (vs : List AbiValue)
  | errL
  | crashL

mutual

/-- The zero Go value of the reflected type of an ABI type, used for array
slots the JSON array does not fill. -/
def zeroValue : AbiType → AbiValue
  | .address => .addr (List.replicate 20 0)
  | .uint s => .uintV s 0
  | .int s => .intV s 0
  | .bool => .boolV false
  | .string => .strV []
  | .bytes => .bytesV []
  | .fixedBytes s => .fixedBytesV (List.replicate s 0)
  | .array e n => .arrV (List.replicate n (zeroValue e))
  | .slice _ => .sliceV []
  | .tuple fields => .tupleV (zeroFields fields)
termination_by t => (sizeOf t, 0)

/-- Zero values of a tuple's field types. -/
def zeroFields : List (GoStr × AbiType) → List AbiValue
  | [] => []
  | (_, t) :: rest => zeroValue t :: zeroFields rest
termination_by fl => (sizeOf fl, 0)

end

mutual

/-- Model of decodeJSONArgument. -/
def decodeJSONArgument (deployed : List (GoStr × AddressBytes)) :
    AbiType → JVal → DecodeOutcome
  | .address, .str s =>
    (match cutFirst addressJSONContractNameOverride s with
      | some p =>
        (match lookupStr deployed p.2 with
          | some a => .ok (.addr a)
          | none => .err)
      | none =>
        if s.length = 20 * 2 + 2 ∨ s.length = 20 * 2 then .ok (.addr (goHexToAddress s))
        else .err)
  | .address, _ => .err
  | .uint size, .str s =>
    (match parseSetString s with
      | some val => .ok (.uintV size (goDecodeUintSwitch size val))
      | none => .err)
  | .uint _, _ => .err
  | .int size, .str s =>
    (match parseSetString s with
      | some val => .ok (.intV size (goDecodeIntSwitch size val))
      | none => .err)
  | .int _, _ => .err
  | .bool, .bool b => .ok (.boolV b)
  | .bool, _ => .err
  | .string, .str s => .ok (.strV s)
  | .string, _ => .err
  | .bytes, .str s =>
    (match hexDecodeStrict (if has0x s then s.drop 2 else s) with
      | some b => .ok (.bytesV b)
      | none => .err)
  | .bytes, _ => .err
  | .fixedBytes size, .str s =>
    (match hexDecodeStrict (if has0x s then s.drop 2 else s) with
      | some b => if b.length = size then .ok (.fixedBytesV b) else .err
      | none => .err)
  | .fixedBytes _, _ => .err
  | .array e n, .arr elems =>
    (match decodeArrayElems deployed e elems 0 n with
      | .okL vs => .ok (.arrV (vs ++ List.replicate (n - elems.length) (zeroValue e)))
      | .errL => .err
      | .crashL => .crash)
  | .array _ _, _ => .err
  | .slice e, .arr elems =>
    (match decodeSliceElems deployed e elems with
      | .okL vs => .ok (.sliceV vs)
      | .errL => .err
      | .crashL => .crash)
  | .slice _, _ => .err
  | .tuple fields, .obj o =>
    (match decodeTupleFields deployed fields o with
      | .okL vs => .ok (.tupleV vs)
      | .errL => .err
      | .crashL => .crash)
  | .tuple _, _ => .err
termination_by t j => (sizeOf t, 0)

/-- The ArrayTy element loop: a decode error is returned, but setting an
element at an index beyond the fixed array length would panic in
reflection, modelled as a crash. -/
def decodeArrayElems (deployed : List (GoStr × AddressBytes)) (e : AbiType) :
    List JVal → Nat → Nat → DecodeListOutcome
  | [], _, _ => .okL []
  | j :: rest, i, n =>
    (match decodeJSONArgument deployed e j with
      | .ok v =>
        if n ≤ i then .crashL
        else
          (match decodeArrayElems deployed e rest (i + 1) n with
            | .okL vs => .okL (v :: vs)
            | .errL => .errL
            | .crashL => .crashL)
      | .err => .errL
      | .crash => .crashL)
termination_by l i n => (sizeOf e, l.length + 1)

/-- The SliceTy element loop (the slice is created with the JSON array's
length, so no bound can be exceeded). -/
def decodeSliceElems (deployed : List (GoStr × AddressBytes)) (e : AbiType) :
    List JVal → DecodeListOutcome
  | [] => .okL []
  | j :: rest =>
    (match decodeJSONArgument deployed e j with
      | .ok v =>
        (match decodeSliceElems deployed e rest with
          | .okL vs => .okL (v :: vs)
          | .errL => .errL
          | .crashL => .crashL)
      | .err => .errL
      | .crash => .crashL)
termination_by l => (sizeOf e, l.length + 1)

/-- The TupleTy field loop.  A missing field is a returned error; but for a
field decode failure the source tests the stale ok flag of the map lookup
(which is true) instead of the decode error, falls through, and calls
reflect.Value.Set with the nil decode result — a runtime panic, modelled as
a crash. -/
def decodeTupleFields (deployed : List (GoStr × AddressBytes)) :
    List (GoStr × AbiType) → List (GoStr × JVal) → DecodeListOutcome
  | [], _ => .okL []
  | (name, t) :: rest, o =>
    (match lookupStr o name with
      | none => .errL
      | some fj =>
        (match decodeJSONArgument deployed t fj with
          | .ok v =>
            (match decodeTupleFields deployed rest o with
              | .okL vs => .okL (v :: vs)
              | .errL => .errL
              | .crashL => .crashL)
          | .err => .crashL
          | .crash => .crashL))
termination_by fl o => (sizeOf fl, 0)

end

mutual

/-- Does a value conform to a type: matching dynamic Go type, numeric
ranges, byte bounds and lengths (this is the set of values the Go code can
be handed for that abi.Type). -/
def conformsB : AbiValue → AbiType → Bool
  | .addr b, .address => decide (b.length = 20) && b.all (fun v => decide (v < 256))
  | .uintV vs n, .uint s =>
    decide (vs = s) && decide (0 ≤ n) && decide (n < (2 : Int) ^ s)
  | .intV vs n, .int s =>
    decide (vs = s) && decide (-((2 : Int) ^ (s - 1)) ≤ n) &&
      decide (n < (2 : Int) ^ (s - 1))
  | .boolV _, .bool => true
  | .strV _, .string => true
  | .bytesV b, .bytes => b.all (fun v => decide (v < 256))
  | .fixedBytesV b, .fixedBytes s =>
    decide (b.length = s) && b.all (fun v => decide (v < 256))
  | .arrV vs, .array e n => decide (vs.length = n) && conformsListB vs e
  | .sliceV vs, .slice e => conformsListB vs e
  | .tupleV vs, .tuple fields => conformsFieldsB vs fields
  | _, _ => false
termination_by v t => (sizeOf t, 0)

/-- Elementwise conformance of a list of values to one element type. -/
def conformsListB : List AbiValue → AbiType → Bool
  | [], _ => true
  | v :: rest, e => conformsB v e && conformsListB rest e
termination_by l e => (sizeOf e, l.length + 1)

/-- Positional conformance of tuple element values to tuple field types. -/
def conformsFieldsB : List AbiValue → List (GoStr × AbiType) → Bool
  | [], [] => true
  | v :: vrest, (_, t) :: frest => conformsB v t && conformsFieldsB vrest frest
  | _, _ => false
termination_by vl fl => (sizeOf fl, 0)

end

/-- No repeated tuple field names (go-ethereum tuple types have distinct
raw names; with distinct keys the association-list object model coincides
with the Go map). -/
def nodupKeysB : List (GoStr × AbiType) → Bool
  | [] => true
  | (k, _) :: rest => (lookupStr rest k).isNone && nodupKeysB rest

mutual

/-- Well-formed types: every tuple in the type has distinct field names. -/
def wfTypeB : AbiType → Bool
  | .array e _ => wfTypeB e
  | .slice e => wfTypeB e
  | .tuple fields => nodupKeysB fields && wfFieldsB fields
  | _ => true
termination_by t => (sizeOf t, 0)

/-- Well-formedness of all field types of a tuple. -/
def wfFieldsB : List (GoStr × AbiType) → Bool
  | [] => true
  | (_, t) :: rest => wfTypeB t && wfFieldsB rest
termination_by fl => (sizeOf fl, 0)

end

/-- Model of DecodeJSONArgumentsFromMap: look each input name up in the
value map (a missing argument is an error) and decode it (a decode error is
returned; the tuple-branch panic propagates). -/
def DecodeJSONArgumentsFromMap (deployed : List (GoStr × AddressBytes)) :
    List (GoStr × AbiType) → List (GoStr × JVal) → DecodeListOutcome
  | [], _ => .okL []
  | (name, t) :: rest, values =>
    (match lookupStr values name with
      | none => .errL
      | some j =>
        (match decodeJSONArgument deployed t j with
          | .ok v =>
            (match DecodeJSONArgumentsFromMap deployed rest values with
              | .okL vs => .okL (v :: vs)
              | .errL => .errL
              | .crashL => .crashL)
          | .err => .errL
          | .crash => .crashL))

/-! ### Round-trip lemmas for the ABI encoder and decoder -/

theorem hexDigitCased_ne_x {d : Nat} (hd : d < 16) (up : Bool) :
    hexDigitCased up d ≠ 'x' := by
  cases up <;> interval_cases d <;> decide

theorem hexDigitCased_ne_X {d : Nat} (hd : d < 16) (up : Bool) :
    hexDigitCased up d ≠ 'X' := by
  cases up <;> interval_cases d <;> decide

/-- A lowercase hex rendering never carries the 0x marker: its second
character is a hex digit, never x or X. -/
theorem has0x_hexEncodeLower (b : List Nat) : has0x (hexEncodeLower b) = false := by
  cases b with
  | nil => rfl
  | cons v rest =>
    have h1 : v % 16 < 16 := Nat.mod_lt _ (by norm_num)
    have hx := hexDigitCased_ne_x h1 false
    have hX := hexDigitCased_ne_X h1 false
    simp [hexEncodeLower, hexEncodeCased, has0x, hx, hX]

theorem goDecodeUintSwitch_id (s : Nat) (n : Int) (h0 : 0 ≤ n) (h1 : n < (2 : Int) ^ s) :
    goDecodeUintSwitch s n = n := by
  unfold goDecodeUintSwitch goBigUint64 truncUnsigned
  split_ifs with h64 h32 h16 h8
  · subst h64; omega
  · subst h32; omega
  · subst h16; omega
  · subst h8; omega
  · rfl

theorem goDecodeIntSwitch_id (s : Nat) (n : Int)
    (h0 : -((2 : Int) ^ (s - 1)) ≤ n) (h1 : n < (2 : Int) ^ (s - 1)) :
    goDecodeIntSwitch s n = n := by
  unfold goDecodeIntSwitch goBigInt64 wrapSigned
  split_ifs with h64 h32 h16 h8
  · subst h64; omega
  · subst h32; omega
  · subst h16; omega
  · subst h8; omega
  · rfl

theorem lookupStr_isSome_of_mem {β : Type} (k : GoStr) (x : β) :
    ∀ l : List (GoStr × β), (k, x) ∈ l → (lookupStr l k).isSome := by
  intro l
  induction l with
  | nil => intro h; cases h
  | cons p rest ih =>
    intro h
    rcases List.mem_cons.mp h with h1 | h2
    · subst h1
      simp [lookupStr]
    · by_cases hk : p.1 = k
      · cases p
        simp_all [lookupStr]
      · cases p
        simp only [lookupStr, if_neg hk]
        exact ih h2

/-- Bundled element round trip for the array and slice loops, assuming the
round trip for the element type. -/
theorem encodeList_roundtrip (casing : AddressBytes → Nat → Bool) (e : AbiType)
    (IH : ∀ v, conformsB v e = true →
      ∃ j, encodeJSONArgument casing e v = some j ∧ decodeJSONArgument [] e j = .ok v) :
    ∀ vs, conformsListB vs e = true →
      ∃ js, encodeList casing e vs = some js ∧ js.length = vs.length ∧
        decodeSliceElems [] e js = .okL vs ∧
        (∀ i n, i + js.length ≤ n → decodeArrayElems [] e js i n = .okL vs) := by
  intro vs
  induction vs with
  | nil =>
    intro hc
    exact ⟨[], by simp [encodeList], rfl, by simp [decodeSliceElems],
      fun i n h => by simp [decodeArrayElems]⟩
  | cons v rest ih =>
    intro hc
    simp only [conformsListB, Bool.and_eq_true] at hc
    obtain ⟨j, hej, hdj⟩ := IH v hc.1
    obtain ⟨js, hejs, hlen, hslice, harr⟩ := ih hc.2
    refine ⟨j :: js, ?_, by simp [hlen], ?_, ?_⟩
    · simp [encodeList, hej, hejs]
    · simp only [decodeSliceElems, hdj, hslice]
    · intro i n h
      simp only [List.length_cons] at h
      have hin : ¬ n ≤ i := by omega
      have hrec := harr (i + 1) n (by omega)
      simp only [decodeArrayElems, hdj, if_neg hin, hrec]

/-- Per-position conformance extracted along a zip. -/
theorem conformsFieldsB_zip :
    ∀ (fields : List (GoStr × AbiType)) (vs : List AbiValue),
      conformsFieldsB vs fields = true →
      ∀ name t v, ((name, t), v) ∈ fields.zip vs → conformsB v t = true := by
  intro fields
  induction fields with
  | nil => intro vs hc name t v hm; simp at hm
  | cons f frest ih =>
    intro vs hc name t v hm
    obtain ⟨fname, ftype⟩ := f
    cases vs with
    | nil => simp [conformsFieldsB] at hc
    | cons v0 vrest =>
      simp only [conformsFieldsB, Bool.and_eq_true] at hc
      simp only [List.zip_cons_cons, List.mem_cons] at hm
      rcases hm with heq | hmem
      · injection heq with h1 h2
        injection h1 with h3 h4
        subst h3
        subst h4
        subst h2
        exact hc.1
      · exact ih vrest hc.2 name t v hmem

/-- Field-wise round trip for tuples: with distinct names, encoding all
fields produces an object in which each field name looks up to a JSON
value decoding back to that field's value. -/
theorem encodeFields_roundtrip (casing : AddressBytes → Nat → Bool) :
    ∀ (fields : List (GoStr × AbiType)) (vs : List AbiValue),
      conformsFieldsB vs fields = true →
      (∀ name t v, ((name, t), v) ∈ fields.zip vs → conformsB v t = true →
        ∃ j, encodeJSONArgument casing t v = some j ∧ decodeJSONArgument [] t j = .ok v) →
      nodupKeysB fields = true →
      ∃ fjs, encodeFields casing fields vs = some fjs ∧
        ∀ name t v, ((name, t), v) ∈ fields.zip vs →
          ∃ j, lookupStr fjs name = some j ∧ decodeJSONArgument [] t j = .ok v := by
  intro fields
  induction fields with
  | nil =>
    intro vs hc hIH hnd
    cases vs with
    | nil => exact ⟨[], by simp [encodeFields], by intro name t v hm; simp at hm⟩
    | cons v0 vrest => simp [conformsFieldsB] at hc
  | cons f frest ih =>
    intro vs hc hIH hnd
    obtain ⟨fname, ftype⟩ := f
    cases vs with
    | nil => simp [conformsFieldsB] at hc
    | cons v0 vrest =>
      simp only [conformsFieldsB, Bool.and_eq_true] at hc
      simp only [nodupKeysB, Bool.and_eq_true, Option.isNone_iff_eq_none] at hnd
      have hhead : ((fname, ftype), v0) ∈ ((fname, ftype) :: frest).zip (v0 :: vrest) := by
        simp [List.zip_cons_cons]
      obtain ⟨j0, hej0, hdj0⟩ := hIH fname ftype v0 hhead hc.1
      obtain ⟨fjs2, hefjs2, hprop2⟩ := ih vrest hc.2
        (fun name t v hm hcv => hIH name t v (by simp [List.zip_cons_cons]; right; exact hm) hcv)
        hnd.2
      refine ⟨(fname, j0) :: fjs2, by simp [encodeFields, hej0, hefjs2], ?_⟩
      intro name t v hm
      simp only [List.zip_cons_cons, List.mem_cons] at hm
      rcases hm with heq | hmem
      · injection heq with h1 h2
        injection h1 with h3 h4
        subst h3
        subst h4
        subst h2
        exact ⟨j0, by simp [lookupStr], hdj0⟩
      · obtain ⟨j, hlook, hdec⟩ := hprop2 name t v hmem
        have hne : fname ≠ name := by
          intro hcontra
          subst hcontra
          have hmemf : (fname, t) ∈ frest := by
            have := List.mem_zip hmem
            exact this.1
          have := lookupStr_isSome_of_mem fname t frest hmemf
          rw [hnd.1] at this
          cases this
        exact ⟨j, by simp only [lookupStr, if_neg hne]; exact hlook, hdec⟩

/-- The tuple field loop succeeds along the encoded object once each field
looks up and decodes back. -/
theorem decodeTupleFields_roundtrip :
    ∀ (fields : List (GoStr × AbiType)) (vs : List AbiValue) (fjs : List (GoStr × JVal)),
      conformsFieldsB vs fields = true →
      (∀ name t v, ((name, t), v) ∈ fields.zip vs →
        ∃ j, lookupStr fjs name = some j ∧ decodeJSONArgument [] t j = .ok v) →
      decodeTupleFields [] fields fjs = .okL vs := by
  intro fields
  induction fields with
  | nil =>
    intro vs fjs hc hH
    cases vs with
    | nil => simp [decodeTupleFields]
    | cons _ _ => simp [conformsFieldsB] at hc
  | cons f frest ih =>
    intro vs fjs hc hH
    obtain ⟨fname, ftype⟩ := f
    cases vs with
    | nil => simp [conformsFieldsB] at hc
    | cons v0 vrest =>
      simp only [conformsFieldsB, Bool.and_eq_true] at hc
      obtain ⟨j0, hlook, hdec⟩ := hH fname ftype v0 (by simp [List.zip_cons_cons])
      have hr := ih vrest fjs hc.2
        (fun name t v hm => hH name t v (by simp [List.zip_cons_cons]; right; exact hm))
      simp only [decodeTupleFields, hlook, hdec, hr]

/-- Well-formedness of a member field type. -/
theorem wfFieldsB_mem :
    ∀ (fields : List (GoStr × AbiType)), wfFieldsB fields = true →
      ∀ name t, (name, t) ∈ fields → wfTypeB t = true := by
  intro fields
  induction fields with
  | nil => intro hw name t hm; cases hm
  | cons f frest ih =>
    intro hw name t hm
    obtain ⟨fname, ftype⟩ := f
    simp only [wfFieldsB, Bool.and_eq_true] at hw
    rcases List.mem_cons.mp hm with heq | hmem
    · injection heq with h1 h2
      subst h2
      exact hw.1
    · exact ih hw.2 name t hmem

/-- The inductive core of the ABI JSON round trip, by strong induction on
the size of the type. -/
theorem abi_roundtrip_aux (casing : AddressBytes → Nat → Bool) :
    ∀ (N : Nat) (t : AbiType), sizeOf t < N → ∀ (v : AbiValue),
      wfTypeB t = true → conformsB v t = true →
      ∃ j, encodeJSONArgument casing t v = some j ∧ decodeJSONArgument [] t j = .ok v := by
  intro N
  induction N with
  | zero => intro t ht; omega
  | succ N ihN =>
    intro t ht v hwf hconf
    cases t with
    | address =>
      cases v <;> simp only [conformsB, Bool.and_eq_true, Bool.false_eq_true,
        decide_eq_true_eq, List.all_eq_true] at hconf
      case addr b =>
        obtain ⟨hlen, hall⟩ := hconf
        refine ⟨.str (goAddressString (casing b) b), by simp [encodeJSONArgument], ?_⟩
        have hcut := cutFirst_magic_goAddressString (casing b) b
        have hlen42 : (goAddressString (casing b) b).length = 42 := by
          rw [goAddressString_length, hlen]
        have hhex := goHexToAddress_goAddressString (casing b) b hlen hall
        simp [decodeJSONArgument, hcut, hlen42, hhex]
    | uint s =>
      cases v <;> simp only [conformsB, Bool.and_eq_true, Bool.false_eq_true,
        decide_eq_true_eq] at hconf
      case uintV vs n =>
        obtain ⟨⟨hvs, h0⟩, h1⟩ := hconf
        subst hvs
        refine ⟨.str (formatInt n), by simp [encodeJSONArgument], ?_⟩
        simp [decodeJSONArgument, parseSetString_formatInt, goDecodeUintSwitch_id vs n h0 h1]
    | int s =>
      cases v <;> simp only [conformsB, Bool.and_eq_true, Bool.false_eq_true,
        decide_eq_true_eq] at hconf
      case intV vs n =>
        obtain ⟨⟨hvs, h0⟩, h1⟩ := hconf
        subst hvs
        refine ⟨.str (formatInt n), by simp [encodeJSONArgument], ?_⟩
        simp [decodeJSONArgument, parseSetString_formatInt, goDecodeIntSwitch_id vs n h0 h1]
    | bool =>
      cases v <;> simp only [conformsB, Bool.false_eq_true] at hconf
      case boolV b =>
        exact ⟨.bool b, by simp [encodeJSONArgument], by simp [decodeJSONArgument]⟩
    | string =>
      cases v <;> simp only [conformsB, Bool.false_eq_true] at hconf
      case strV s =>
        exact ⟨.str s, by simp [encodeJSONArgument], by simp [decodeJSONArgument]⟩
    | bytes =>
      cases v <;> simp only [conformsB, Bool.false_eq_true, decide_eq_true_eq,
        List.all_eq_true] at hconf
      case bytesV b =>
        refine ⟨.str (hexEncodeLower b), by simp [encodeJSONArgument], ?_⟩
        have hdec : hexDecodeStrict (hexEncodeLower b) = some b :=
          hexDecodeStrict_encode _ b hconf 0
        simp [decodeJSONArgument, has0x_hexEncodeLower, hdec]
    | fixedBytes sz =>
      cases v <;> simp only [conformsB, Bool.and_eq_true, Bool.false_eq_true,
        decide_eq_true_eq, List.all_eq_true] at hconf
      case fixedBytesV b =>
        obtain ⟨hlen, hall⟩ := hconf
        refine ⟨.str (hexEncodeLower b), by simp [encodeJSONArgument], ?_⟩
        have hdec : hexDecodeStrict (hexEncodeLower b) = some b :=
          hexDecodeStrict_encode _ b hall 0
        simp [decodeJSONArgument, has0x_hexEncodeLower, hdec, hlen]
    | array e n =>
      cases v <;> simp only [conformsB, Bool.and_eq_true, Bool.false_eq_true,
        decide_eq_true_eq] at hconf
      case arrV vs =>
        obtain ⟨hvn, hcl⟩ := hconf
        simp only [wfTypeB] at hwf
        have hse : sizeOf e < N := by
          have hs : sizeOf (AbiType.array e n) = 1 + sizeOf e + sizeOf n := by simp
          omega
        obtain ⟨js, hejs, hlen, hslice, harr⟩ :=
          encodeList_roundtrip casing e (fun w hw2 => ihN e hse w hwf hw2) vs hcl
        refine ⟨.arr js, by simp [encodeJSONArgument, hejs], ?_⟩
        have harr0 := harr 0 n (by omega)
        simp [decodeJSONArgument, harr0, hlen, hvn]
    | slice e =>
      cases v <;> simp only [conformsB, Bool.false_eq_true] at hconf
      case sliceV vs =>
        simp only [wfTypeB] at hwf
        have hse : sizeOf e < N := by
          have hs : sizeOf (AbiType.slice e) = 1 + sizeOf e := by simp
          omega
        obtain ⟨js, hejs, hlen, hslice, harr⟩ :=
          encodeList_roundtrip casing e (fun w hw2 => ihN e hse w hwf hw2) vs hconf
        refine ⟨.arr js, by simp [encodeJSONArgument, hejs], ?_⟩
        simp [decodeJSONArgument, hslice]
    | tuple fields =>
      cases v <;> simp only [conformsB, Bool.false_eq_true] at hconf
      case tupleV vs =>
        simp only [wfTypeB, Bool.and_eq_true] at hwf
        have hIH : ∀ name t2 v2, ((name, t2), v2) ∈ fields.zip vs → conformsB v2 t2 = true →
            ∃ j, encodeJSONArgument casing t2 v2 = some j ∧
              decodeJSONArgument [] t2 j = .ok v2 := by
          intro name t2 v2 hm hc2
          have hmem : (name, t2) ∈ fields := (List.mem_zip hm).1
          have hsz : sizeOf t2 < N := by
            have h1 : sizeOf (name, t2) < sizeOf fields := List.sizeOf_lt_of_mem hmem
            have h2 : sizeOf (name, t2) = 1 + sizeOf name + sizeOf t2 := by simp
            have h3 : sizeOf (AbiType.tuple fields) = 1 + sizeOf fields := by simp
            omega
          exact ihN t2 hsz v2 (wfFieldsB_mem fields hwf.2 name t2 hmem) hc2
        obtain ⟨fjs, hef, hprop⟩ := encodeFields_roundtrip casing fields vs hconf hIH hwf.1
        refine ⟨.obj fjs, by simp [encodeJSONArgument, hef], ?_⟩
        have hd := decodeTupleFields_roundtrip fields vs fjs hconf hprop
        simp [decodeJSONArgument, hd]

/-- Claim C1: for every supported ABI type and every conforming value,
decoding the JSON encoding (with an empty deployed-contracts map) succeeds
and returns the same value; in particular integers of every size are
encoded as decimal strings (which the first part decodes back to the same
integer).  The casing argument ranges over all checksum case patterns,
covering the one go-ethereum computes. -/
theorem abi_json_roundtrip :
    (∀ (casing : AddressBytes → Nat → Bool) (t : AbiType) (v : AbiValue),
        wfTypeB t = true → conformsB v t = true →
        ∃ j, encodeJSONArgument casing t v = some j ∧ decodeJSONArgument [] t j = .ok v) ∧
      (∀ (casing : AddressBytes → Nat → Bool) (s : Nat) (n : Int),
        encodeJSONArgument casing (.uint s) (.uintV s n) = some (.str (formatInt n)) ∧
          encodeJSONArgument casing (.int s) (.intV s n) = some (.str (formatInt n))) := by
  constructor
  · intro casing t v hwf hconf
    exact abi_roundtrip_aux casing (sizeOf t + 1) t (by omega) v hwf hconf
  · intro casing s n
    constructor <;> simp [encodeJSONArgument]

/-- Witness for C1 at a concrete tuple of a uint8 and a bool. -/
theorem abi_json_roundtrip_witness :
    ∃ j, encodeJSONArgument (fun _ _ => false)
        (.tuple [(['a'], .uint 8), (['b'], .bool)])
        (.tupleV [.uintV 8 7, .boolV true]) = some j ∧
      decodeJSONArgument [] (.tuple [(['a'], .uint 8), (['b'], .bool)]) j =
        .ok (.tupleV [.uintV 8 7, .boolV true]) :=
  abi_json_roundtrip.1 (fun _ _ => false) _ _
    (by simp [wfTypeB, wfFieldsB, nodupKeysB, lookupStr])
    (by simp [conformsB, conformsFieldsB])

/-- Claim C6: an address-typed JSON string carrying the
DeployedContract:Name marker resolves to the deployed-contracts map entry
for Name and to nothing else; a missing Name is an error; and a string
without the marker is decoded as a plain hex address when its length is 42
or 40 and rejected otherwise. -/
theorem decodeJSONArgument_address_magic :
    (∀ (m : List (GoStr × AddressBytes)) (name : GoStr) (a : AddressBytes),
        lookupStr m name = some a →
        decodeJSONArgument m .address (.str (addressJSONContractNameOverride ++ name)) =
          .ok (.addr a)) ∧
      (∀ (m : List (GoStr × AddressBytes)) (name : GoStr),
        lookupStr m name = none →
        decodeJSONArgument m .address (.str (addressJSONContractNameOverride ++ name)) =
          .err) ∧
      (∀ (m : List (GoStr × AddressBytes)) (s : GoStr),
        cutFirst addressJSONContractNameOverride s = none →
        decodeJSONArgument m .address (.str s) =
          if s.length = 42 ∨ s.length = 40 then .ok (.addr (goHexToAddress s)) else .err) := by
  refine ⟨?_, ?_, ?_⟩
  · intro m name a hl
    have hcut := cutFirst_append addressJSONContractNameOverride name
    simp [decodeJSONArgument, hcut, hl]
  · intro m name hl
    have hcut := cutFirst_append addressJSONContractNameOverride name
    simp [decodeJSONArgument, hcut, hl]
  · intro m s hcut
    simp only [decodeJSONArgument, hcut]

/-- Witness for C6: a one-entry deployed map resolves, a missing name
fails. -/
theorem decodeJSONArgument_address_magic_witness :
    decodeJSONArgument [(['F', 'o', 'o'], List.replicate 20 1)] .address
        (.str (addressJSONContractNameOverride ++ ['F', 'o', 'o'])) =
      .ok (.addr (List.replicate 20 1)) ∧
      decodeJSONArgument [] .address
        (.str (addressJSONContractNameOverride ++ ['B', 'a', 'r'])) = .err :=
  ⟨decodeJSONArgument_address_magic.1 [(['F', 'o', 'o'], List.replicate 20 1)]
      ['F', 'o', 'o'] (List.replicate 20 1) (by simp [lookupStr]),
    decodeJSONArgument_address_magic.2.1 [] ['B', 'a', 'r'] rfl⟩

/-- Claim C9 (refuting evaluation): when a tuple field value fails to
decode (here a bool where a uint8 string is required), decodeJSONArgument
does not return an error: the stale ok test lets the nil result reach
reflect.Value.Set, a panic (crash), and DecodeJSONArgumentsFromMap
propagates it. -/
theorem decode_tuple_field_failure_crashes :
    decodeJSONArgument [] (.tuple [(['a'], .uint 8)]) (.obj [(['a'], .bool true)]) =
      .crash ∧
      DecodeJSONArgumentsFromMap [] [(['x'], .tuple [(['a'], .uint 8)])]
        [(['x'], .obj [(['a'], .bool true)])] = .crashL := by
  constructor <;>
    simp [decodeJSONArgument, decodeTupleFields, DecodeJSONArgumentsFromMap, lookupStr]

/-! ### CallMessage JSON unmarshalling (gencodec, package calls)

CallMessage.UnmarshalJSON unmarshals into a struct whose fields are all
pointers, so a field that is absent from the JSON object or null comes back
nil; it then copies only the non-nil fields into the receiver.  The model
works on that decoded struct (the patch): JSON parsing of well-typed
fields is go-ethereum/encoding-json machinery outside this code.  The ten
guarded assignments write pairwise distinct fields, so they are modelled as
one simultaneous record update.  The dataAbiValues payload type is
abstracted into a type parameter. -/

/-- The receiver struct calls.CallMessage (field types as in Go: pointer
fields are Options). -/
structure CallMessage (α : Type) where
  msgFrom : AddressBytes
  msgTo : Option AddressBytes
  msgNonce : Nat
  msgValue : Option Int
  msgGas : Nat
  msgGasPrice : Option Int
  msgGasFeeCap : Option Int
  msgGasTipCap : Option Int
  msgData : List Nat
  msgDataAbiValues : Option α

/-- The all-pointers struct UnmarshalJSON decodes into; none is a nil
pointer (field absent or null). -/
structure CallMessagePatch (α : Type) where
  msgFrom : Option AddressBytes
  msgTo : Option AddressBytes
  msgNonce : Option Nat
  msgValue : Option Int
  msgGas : Option Nat
  msgGasPrice : Option Int
  msgGasFeeCap : Option Int
  msgGasTipCap : Option Int
  msgData : Option (List Nat)
  msgDataAbiValues : Option α

/-- Model of CallMessage.UnmarshalJSON applied to the decoded patch. -/
def unmarshalCallMessage {α : Type} (c : CallMessage α) (dec : CallMessagePatch α) :
    CallMessage α :=
  { msgFrom := match dec.msgFrom with | some v => v | none => c.msgFrom,
    msgTo := match dec.msgTo with | some v => some v | none => c.msgTo,
    msgNonce := match dec.msgNonce with | some v => v | none => c.msgNonce,
    msgValue := match dec.msgValue with | some v => some v | none => c.msgValue,
    msgGas := match dec.msgGas with | some v => v | none => c.msgGas,
    msgGasPrice := match dec.msgGasPrice with | some v => some v | none => c.msgGasPrice,
    msgGasFeeCap := match dec.msgGasFeeCap with | some v => some v | none => c.msgGasFeeCap,
    msgGasTipCap := match dec.msgGasTipCap with | some v => some v | none => c.msgGasTipCap,
    msgData := match dec.msgData with | some v => v | none => c.msgData,
    msgDataAbiValues :=
      match dec.msgDataAbiValues with | some v => some v | none => c.msgDataAbiValues }

/-- Claim C10: unmarshalling is a partial update: every absent/null field
keeps the receiver's prior value and exactly the present fields are
overwritten (unmarshalling itself always succeeds on the decoded patch). -/
theorem callMessage_unmarshal_partial_update {α : Type} (c : CallMessage α)
    (dec : CallMessagePatch α) :
    ((dec.msgFrom = none → (unmarshalCallMessage c dec).msgFrom = c.msgFrom) ∧
        (∀ v, dec.msgFrom = some v → (unmarshalCallMessage c dec).msgFrom = v)) ∧
      ((dec.msgTo = none → (unmarshalCallMessage c dec).msgTo = c.msgTo) ∧
        (∀ v, dec.msgTo = some v → (unmarshalCallMessage c dec).msgTo = some v)) ∧
      ((dec.msgNonce = none → (unmarshalCallMessage c dec).msgNonce = c.msgNonce) ∧
        (∀ v, dec.msgNonce = some v → (unmarshalCallMessage c dec).msgNonce = v)) ∧
      ((dec.msgValue = none → (unmarshalCallMessage c dec).msgValue = c.msgValue) ∧
        (∀ v, dec.msgValue = some v → (unmarshalCallMessage c dec).msgValue = some v)) ∧
      ((dec.msgGas = none → (unmarshalCallMessage c dec).msgGas = c.msgGas) ∧
        (∀ v, dec.msgGas = some v → (unmarshalCallMessage c dec).msgGas = v)) ∧
      ((dec.msgGasPrice = none → (unmarshalCallMessage c dec).msgGasPrice = c.msgGasPrice) ∧
        (∀ v, dec.msgGasPrice = some v →
          (unmarshalCallMessage c dec).msgGasPrice = some v)) ∧
      ((dec.msgGasFeeCap = none →
          (unmarshalCallMessage c dec).msgGasFeeCap = c.msgGasFeeCap) ∧
        (∀ v, dec.msgGasFeeCap = some v →
          (unmarshalCallMessage c dec).msgGasFeeCap = some v)) ∧
      ((dec.msgGasTipCap = none →
          (unmarshalCallMessage c dec).msgGasTipCap = c.msgGasTipCap) ∧
        (∀ v, dec.msgGasTipCap = some v →
          (unmarshalCallMessage c dec).msgGasTipCap = some v)) ∧
      ((dec.msgData = none → (unmarshalCallMessage c dec).msgData = c.msgData) ∧
        (∀ v, dec.msgData = some v → (unmarshalCallMessage c dec).msgData = v)) ∧
      ((dec.msgDataAbiValues = none →
          (unmarshalCallMessage c dec).msgDataAbiValues = c.msgDataAbiValues) ∧
        (∀ v, dec.msgDataAbiValues = some v →
          (unmarshalCallMessage c dec).msgDataAbiValues = some v)) := by
  refine ⟨⟨?_, ?_⟩, ⟨?_, ?_⟩, ⟨?_, ?_⟩, ⟨?_, ?_⟩, ⟨?_, ?_⟩, ⟨?_, ?_⟩, ⟨?_, ?_⟩,
    ⟨?_, ?_⟩, ⟨?_, ?_⟩, ⟨?_, ?_⟩⟩ <;>
  first
  | (intro v h; simp [unmarshalCallMessage, h])
  | (intro h; simp [unmarshalCallMessage, h])

/-- Witness for C10: with only nonce present, nonce is overwritten and from
is preserved. -/
theorem callMessage_unmarshal_partial_update_witness :
    (unmarshalCallMessage (α := Unit)
        ⟨List.replicate 20 3, none, 1, none, 2, none, none, none, [], none⟩
        ⟨none, none, some 7, none, none, none, none, none, none, none⟩).msgNonce = 7 ∧
      (unmarshalCallMessage (α := Unit)
          ⟨List.replicate 20 3, none, 1, none, 2, none, none, none, [], none⟩
          ⟨none, none, some 7, none, none, none, none, none, none, none⟩).msgFrom =
        List.replicate 20 3 :=
  ⟨(callMessage_unmarshal_partial_update
        ⟨List.replicate 20 3, none, 1, none, 2, none, none, none, [], none⟩
        ⟨none, none, some 7, none, none, none, none, none, none, none⟩).2.2.1.2 7 rfl,
    (callMessage_unmarshal_partial_update
        ⟨List.replicate 20 3, none, 1, none, 2, none, none, none, [], none⟩
        ⟨none, none, some 7, none, none, none, none, none, none, none⟩).1.1 rfl⟩

end Medusa
